import Mathlib

/-!
Shallow embedding of the core of `phr3nzy/duan-sssp`:
the directed graph and its constant-degree transform (`graph/graph.go`),
the block-based priority queue (`ds/ds.go`), and the BMSSP solver
(`sssp/sssp.go`).

Modelling conventions, used throughout:

* Go `float64` values are modelled by `WithTop ℤ`.  Every concrete
  weight in this development is a small integer, and float64 arithmetic
  on small integers is exact, so the embedding is exact on them.  The
  source uses `Infinity = math.MaxFloat64` as the unreached sentinel;
  `MaxFloat64 + w` rounds back to `MaxFloat64` for small `w`, which is
  the saturating addition of `WithTop ℤ` (`⊤ + w = ⊤`), and all
  comparisons agree (`⊤ ≤ ⊤` is true, `⊤ < ⊤` is false).
* Go slices become `List`s; `s[i]` reads become `getD` with the natural
  default.  Go panics on out-of-range writes; `List.set` out of range is
  a no-op, and theorems that need in-range indices carry explicit
  hypotheses.
* Go `map[int]bool` sets are modelled as duplicate-free lists in
  insertion order.  Go randomises map iteration order; the model fixes
  insertion order, which is one of the admissible executions, and no
  theorem below depends on the order of a set's elements.
* `container/heap` pops some minimum-priority entry (ties unspecified);
  the model pops the first entry of minimal priority.
* Unbounded `for` loops become structural recursion on an explicit
  `fuel : Nat`; `none` means the loop has not finished within `fuel`
  iterations.  All recursion is structural so that the kernel can
  evaluate the model on concrete inputs.
-/

namespace DuanSSSP

/-- Extended value type for distances and weights: `⊤` is the
`Infinity = math.MaxFloat64` sentinel of the source, finite values are
exact rationals. -/
abbrev Val : Type := WithTop ℤ

/-- The source's `Infinity` constant (`sssp.go`, `ds.go`). -/
def Infinity : Val := ⊤

/-! ## Graph (`graph/graph.go`) -/

/-- An adjacency record: `Edge{To, Weight}`. -/
structure Edge where
  To : Nat
  Weight : ℤ
deriving DecidableEq, Repr, Inhabited

/-- `Graph{V, Adj}`: vertex count and adjacency lists. -/
structure Graph where
  V : Nat
  Adj : List (List Edge)
deriving DecidableEq, Repr, Inhabited

/-- `NewGraph(v)`. -/
def newGraph (v : Nat) : Graph :=
  { V := v, Adj := List.replicate v [] }

/-- `AddEdge(u, v, w)`: appends to `Adj[u]`, with no validation of `w`
or of the endpoints.  (In Go an out-of-range `u` panics; the model's
`List.set` is then a no-op.) -/
def Graph.addEdge (g : Graph) (u v : Nat) (w : ℤ) : Graph :=
  { g with Adj := g.Adj.set u (g.Adj.getD u [] ++ [⟨v, w⟩]) }

/-- Well-formed graph: adjacency table has one row per vertex and every
edge target is in range.  Graphs built from `newGraph`/`addEdge` with
in-range endpoints satisfy this. -/
def Graph.WF (g : Graph) : Prop :=
  g.Adj.length = g.V ∧ ∀ l ∈ g.Adj, ∀ e ∈ l, e.To < g.V

/-- All edges of `g` as `(source, edge)` pairs, in the iteration order
of the source (`for u … for e in Adj[u]`). -/
def Graph.allEdges (g : Graph) : List (Nat × Edge) :=
  (List.range g.V).flatMap fun u => (g.Adj.getD u []).map fun e => (u, e)

/-! ## Constant-degree transform (`graph/graph.go`, `ToConstantDegree`) -/

/-- In-degree table, as computed by the source's counting loop. -/
def Graph.inDegrees (g : Graph) : List Nat :=
  g.allEdges.foldl (fun acc ue => acc.set ue.2.To (acc.getD ue.2.To 0 + 1))
    (List.replicate g.V 0)

/-- Cycle size of original vertex `u`:
`sz := len(Adj[u]) + inDegree[u]`, forced to `1` when zero. -/
def Graph.cycSize (g : Graph) (u : Nat) : Nat :=
  let sz := (g.Adj.getD u []).length + (g.inDegrees).getD u 0
  if sz = 0 then 1 else sz

/-- Start id of `u`'s cycle: the running counter of the source is the
prefix sum of the cycle sizes. -/
def Graph.cycStart (g : Graph) (u : Nat) : Nat :=
  ((List.range u).map g.cycSize).sum

/-- Total number of transformed vertices (`currentID` after the loop). -/
def Graph.TotalV (g : Graph) : Nat :=
  ((List.range g.V).map g.cycSize).sum

/-- A transformed edge (from, to, weight). -/
abbrev TEdge : Type := Nat × Nat × ℤ

/-- The zero-weight cycle edges, in source emission order:
for each `u`, for each `i < sz`, edge `start+i → start+(i+1) % sz`. -/
def Graph.cycleEdges (g : Graph) : List TEdge :=
  (List.range g.V).flatMap fun u =>
    (List.range (g.cycSize u)).map fun i =>
      (g.cycStart u + i, g.cycStart u + (i + 1) % g.cycSize u, (0 : ℤ))

/-- One step of the real-edge emission loop: consume the next slot of
the source's cycle and then the next slot of the target's cycle. -/
def realStep (g : Graph) (st : List Nat × List TEdge) (ue : Nat × Edge) :
    List Nat × List TEdge :=
  let u := ue.1
  let v := ue.2.To
  let uSlot := st.1.getD u 0
  let slots1 := st.1.set u (uSlot + 1)
  let vSlot := slots1.getD v 0
  let slots2 := slots1.set v (vSlot + 1)
  (slots2, st.2 ++ [(g.cycStart u + uSlot, g.cycStart v + vSlot, ue.2.Weight)])

/-- The real (weight-carrying) transformed edges, in emission order. -/
def Graph.realEdges (g : Graph) : List TEdge :=
  (g.allEdges.foldl (realStep g) (List.replicate g.V 0, [])).2

/-- `TransformedGraph{G, OriginalTo, NewToOrigin}`. -/
structure TransformedGraph where
  G : Graph
  originalTo : List Nat
  newToOrigin : List Nat
deriving Repr

/-- `ToConstantDegree()`: cycles first, then real edges, each added with
`AddEdge`. -/
def Graph.ToConstantDegree (g : Graph) : TransformedGraph :=
  let ng := (g.cycleEdges ++ g.realEdges).foldl
    (fun h e => h.addEdge e.1 e.2.1 e.2.2) (newGraph g.TotalV)
  { G := ng
    originalTo := (List.range g.V).map g.cycStart
    newToOrigin := (List.range g.V).flatMap fun u =>
      List.replicate (g.cycSize u) u }

/-- `MapDistances(dist)`: `res[i] = dist[OriginalTo[i]]`. -/
def TransformedGraph.mapDistances (tg : TransformedGraph) (dist : List Val) :
    List Val :=
  tg.originalTo.map fun s => dist.getD s ⊤

/-! ## Block sequence (`ds/ds.go`) -/

/-- `Item{Key, Value}`.  The source's intrusive `next` pointer is
subsumed by the containing list. -/
structure Item where
  Key : Nat
  Value : Val
deriving DecidableEq, Repr

instance : Inhabited Item := ⟨⟨0, 0⟩⟩

/-- A block: its items in linked-list order (head first) and its
`upperBound` tag.  `size` of the source is `items.length`. -/
structure Block where
  items : List Item
  upperBound : Val
deriving DecidableEq, Repr

instance : Inhabited Block := ⟨⟨[], ⊤⟩⟩

/-- `DataStructure{M, B, Count, d0, d1}`. -/
structure DataStructure where
  M : Nat
  B : Val
  Count : Nat
  d0 : List Block
  d1 : List Block
deriving DecidableEq, Repr

/-- `NewDataStructure(m)`. -/
def newDataStructure (m : Nat) : DataStructure :=
  { M := m, B := Infinity, Count := 0, d0 := [], d1 := [] }

/-- Insertion into a value-sorted item list.  The source sorts with
`sort.Slice` (comparison `Value <`, order of equal values unspecified);
the model's insertion sort is one admissible outcome. -/
def insertSorted (x : Item) : List Item → List Item
  | [] => [x]
  | y :: ys => if x.Value ≤ y.Value then x :: y :: ys else y :: insertSorted x ys

/-- Sort items ascending by value. -/
def sortByValue (l : List Item) : List Item :=
  l.foldr insertSorted []

/-- `split(d1Index)`: materialise, sort, cut at the median, left half
keeps the position with `upperBound := items[mid-1].Value`, right half
is inserted just after with the old `upperBound`. -/
def DataStructure.split (ds : DataStructure) (idx : Nat) : DataStructure :=
  let b := ds.d1.getD idx default
  let sorted := sortByValue b.items
  let mid := sorted.length / 2
  let left : Block := ⟨sorted.take mid, (sorted.getD (mid - 1) default).Value⟩
  let right : Block := ⟨sorted.drop mid, b.upperBound⟩
  { ds with d1 := (ds.d1.set idx left).take (idx + 1)
      ++ [right] ++ (ds.d1.set idx left).drop (idx + 1) }

/-- `Insert(key, val)`: bump `Count`, binary-search `d1` for the first
block with `upperBound ≥ val` (creating the `⊤` sentinel block when `d1`
is empty, falling back to the last block otherwise), prepend the item to
that block's list, and split if the block now exceeds `M`. -/
def DataStructure.insert (ds : DataStructure) (key : Nat) (val : Val) :
    DataStructure :=
  let ds1 : DataStructure := { ds with Count := ds.Count + 1 }
  let idx0 : Nat := ds1.d1.findIdx fun b => val ≤ b.upperBound
  let d1idx : List Block × Nat :=
    if idx0 = ds1.d1.length then
      if ds1.d1.length = 0 then ([⟨[], ⊤⟩], 0)
      else (ds1.d1, ds1.d1.length - 1)
    else (ds1.d1, idx0)
  let tb : Block := d1idx.1.getD d1idx.2 default
  let tb2 : Block := { tb with items := ⟨key, val⟩ :: tb.items }
  let ds2 : DataStructure := { ds1 with d1 := d1idx.1.set d1idx.2 tb2 }
  if tb2.items.length > ds2.M then ds2.split d1idx.2 else ds2

/-- Chunking of `BatchPrepend`: `for i := 0; i < len; i += M`.  Fuel is
the list length; `max 1 m` mirrors the fact that the Go loop advances by
`M ≥ 1` for every structure the program builds (with `M = 0` the Go loop
would not terminate). -/
def chunksOf (m : Nat) : Nat → List Item → List (List Item)
  | 0, _ => []
  | _, [] => []
  | fuel + 1, l => l.take (max 1 m) :: chunksOf m fuel (l.drop (max 1 m))

/-- Build one block from a sorted chunk: items are prepended one by one
(so the linked list ends up in descending value order) and
`upperBound := chunk[len-1].Value`. -/
def blockOfChunk (chunk : List Item) : Block :=
  ⟨chunk.reverse, (chunk.getD (chunk.length - 1) default).Value⟩

/-- `BatchPrepend(items)`: bump `Count`, sort, chunk into groups of at
most `M`, and prepend each chunk's block to the front of `d0` in chunk
order. -/
def DataStructure.batchPrepend (ds : DataStructure) (items : List Item) :
    DataStructure :=
  if items.length = 0 then ds
  else
    let ds := { ds with Count := ds.Count + items.length }
    let sorted := sortByValue items
    let blocks := (chunksOf ds.M sorted.length sorted).map blockOfChunk
    { ds with d0 := blocks.foldl (fun acc blk => blk :: acc) ds.d0 }

/-- `sortBlock`: sort a block's list ascending by value (identity on
lists of length `< 2`, exactly as in the source). -/
def sortBlockItems (b : Block) : Block :=
  { b with items := sortByValue b.items }

/-- `peekBlock`: head value or `Infinity`. -/
def peekBlock (b : Block) : Val :=
  match b.items with
  | [] => Infinity
  | x :: _ => x.Value

/-- Drain one block into `collected` (up to `m` total items); returns
the new collected list and the block's remainder. -/
def drainBlock (m : Nat) (collected : List Item) (b : Block) :
    List Item × Block :=
  let n := m - collected.length
  (collected ++ b.items.take n, { b with items := b.items.drop n })

/-- `Pull()`: drain `d0` front to back, then `d1` (sorting each block
entered), drop emptied blocks, and compute the boundary by peeking the
front of what remains (sorting `d1[0]` in place when `d0` is empty).
Returns (collected, boundary, new structure). -/
def DataStructure.pull (ds : DataStructure) : List Item × Val × DataStructure :=
  let step := fun (acc : List Item × List Block) (blk : Block) =>
    if acc.1.length < ds.M then
      let (c, b') := drainBlock ds.M acc.1 blk
      (c, if b'.items.length > 0 then acc.2 ++ [b'] else acc.2)
    else (acc.1, acc.2 ++ [blk])
  let (collected0, d0') := ds.d0.foldl step ([], [])
  let stepSort := fun (acc : List Item × List Block) (blk : Block) =>
    if acc.1.length < ds.M then
      let (c, b') := drainBlock ds.M acc.1 (sortBlockItems blk)
      (c, if b'.items.length > 0 then acc.2 ++ [b'] else acc.2)
    else (acc.1, acc.2 ++ [blk])
  let (collected, d1') :=
    if collected0.length < ds.M then ds.d1.foldl stepSort (collected0, [])
    else (collected0, ds.d1)
  let count' := ds.Count - collected.length
  let (bi, d1'') :=
    if count' > 0 then
      match d0', d1' with
      | b :: _, _ => (peekBlock b, d1')
      | [], b :: rest => (peekBlock (sortBlockItems b), sortBlockItems b :: rest)
      | [], [] => (Infinity, d1')
    else (Infinity, d1')
  (collected, bi, { ds with Count := count', d0 := d0', d1 := d1'' })

/-! ## Solver (`sssp/sssp.go`)

The solver's state is passed explicitly: a `Solver` record holds the
graph and the derived constants `K`, `T` (the source computes them from
`ln n` in `NewSolver`; concrete instantiations below use the values that
computation yields, noted at each use), and the mutable `Dist` vector is
threaded through every function. -/

/-- `Solver{G, K, T}` (the `Dist` field is threaded explicitly). -/
structure Solver where
  G : Graph
  K : Nat
  T : Nat
deriving Repr

/-- Read of `s.Dist[i]`. -/
def dget (dist : List Val) (i : Nat) : Val := dist.getD i ⊤

/-- Adjacency list of `u` (`s.G.Adj[u]`). -/
def Solver.adj (c : Solver) (u : Nat) : List Edge := c.G.Adj.getD u []

/-! ### FindPivots (Algorithm 1) -/

/-- One relaxation round of `relaxKSteps`: relax every edge out of
`wPrev`, collecting the next frontier `wi` and extending `inW`/`wl`.
State is `(wi, inW, wl, dist)`. -/
def relaxRound (c : Solver) (B : Val) (wPrev : List Nat) :
    List Bool → List Nat → List Val →
    List Nat × List Bool × List Nat × List Val :=
  fun inW wl dist =>
    wPrev.foldl
      (fun acc u =>
        (c.adj u).foldl
          (fun (acc : List Nat × List Bool × List Nat × List Val) e =>
            let (wi, inW, wl, dist) := acc
            let newDist := dget dist u + (e.Weight : Val)
            if newDist < dget dist e.To then
              let dist := dist.set e.To newDist
              if newDist < B ∧ ¬ inW.getD e.To false then
                (wi ++ [e.To], inW.set e.To true, wl ++ [e.To], dist)
              else (wi, inW, wl, dist)
            else acc)
          acc)
      ([], inW, wl, dist)

/-- `relaxKSteps`: `k` rounds with the early return when
`len(W_list) > k*len(S)` (checked after each round, as in the source).
`kS` is `K * len(S)`. -/
def relaxKStepsAux (c : Solver) (B : Val) (kS : Nat) :
    Nat → List Nat → List Bool → List Nat → List Val →
    List Bool × List Nat × List Val
  | 0, _, inW, wl, dist => (inW, wl, dist)
  | i + 1, wPrev, inW, wl, dist =>
    let (wi, inW, wl, dist) := relaxRound c B wPrev inW wl dist
    if wl.length > kS then (inW, wl, dist)
    else relaxKStepsAux c B kS i wi inW wl dist

/-- The forest-edge test `math.Abs(Dist[v]-(Dist[u]+w)) < 1e-9`,
evaluated on the extended values.  On integer-valued float data the
difference is exact, so the `1e-9` tolerance admits exactly the zero
difference: two equal finite values pass, two `MaxFloat64` sentinels
differ by `0` and pass, and a sentinel against a small finite value
differs by an astronomic amount and fails.  All cases are the equality
test below. -/
def nearEq (a b : Val) : Bool := decide (a = b)

/-- `calcSize` of `makeTreeSizeCalculator`: memoised subtree size with
the three-state marker (`0` unvisited, `-1` on stack, positive =
computed).  The membership test `inWf` abstracts the source's `inW`
array lookup.  Fuel `G.V + 1` (used by all callers) always suffices:
every nested call strictly grows the on-stack set, which has at most
`G.V` members. -/
def calcSize (c : Solver) (dist : List Val) (inWf : Nat → Bool) :
    Nat → Nat → List Int → Nat × List Int
  | 0, _, memo => (1, memo)
  | fuel + 1, u, memo =>
    let m := memo.getD u 0
    if m > 0 then (m.toNat, memo)
    else if m = -1 then (1, memo)
    else
      let memo := memo.set u (-1)
      let (cnt, memo) :=
        (c.adj u).foldl
          (fun (acc : Nat × List Int) e =>
            if inWf e.To ∧ nearEq (dget dist e.To) (dget dist u + (e.Weight : Val)) then
              let (s, memo) := calcSize c dist inWf fuel e.To acc.2
              (acc.1 + s, memo)
            else acc)
          (0, memo)
      (1 + cnt, memo.set u (Int.ofNat (1 + cnt)))

/-- The shared-memo run of `computePivots`: fold over `S`, collecting
each source's memoised subtree size. -/
def subtreeSizes (c : Solver) (dist : List Val) (inWf : Nat → Bool)
    (S : List Nat) : List (Nat × Nat) :=
  (S.foldl
    (fun (acc : List (Nat × Nat) × List Int) u =>
      let r := calcSize c dist inWf (c.G.V + 1) u acc.2
      (acc.1 ++ [(u, r.1)], r.2))
    ([], List.replicate c.G.V 0)).1

/-- `computePivots`: keep the sources whose memoised subtree size is at
least `K` (the source folds the filter into the same loop; the two are
related by `computePivots_eq_filter` below). -/
def computePivots (c : Solver) (dist : List Val) (S : List Nat)
    (inWf : Nat → Bool) : List Nat :=
  (S.foldl
    (fun (acc : List Nat × List Int) u =>
      let r := calcSize c dist inWf (c.G.V + 1) u acc.2
      (if r.1 ≥ c.K then acc.1 ++ [u] else acc.1, r.2))
    ([], List.replicate c.G.V 0)).1

/-- `FindPivots(B, S)`: mark `S`, relax `K` rounds, early-return
`P = S` when `W` outgrew `K*|S|`, otherwise filter `S` by subtree size.
Returns `(P, W, dist)`. -/
def Solver.findPivots (c : Solver) (dist : List Val) (B : Val)
    (S : List Nat) : List Nat × List Nat × List Val :=
  let inW := S.foldl (fun a x => a.set x true) (List.replicate c.G.V false)
  let (inW, wl, dist) := relaxKStepsAux c B (c.K * S.length) c.K S inW S dist
  if wl.length > c.K * S.length then (S, wl, dist)
  else (computePivots c dist S (fun v => inW.getD v false), wl, dist)

/-! ### BaseCase (Algorithm 2) -/

/-- Insert into the settled set (Go: `U0[u] = true`), keeping insertion
order. -/
def addSet (l : List Nat) (u : Nat) : List Nat :=
  if u ∈ l then l else l ++ [u]

/-- Pop the first minimum-priority entry of the queue (`heap.Pop`). -/
def popMin (pq : List (Nat × Val)) : (Nat × Val) × List (Nat × Val) :=
  let m := (pq.map (·.2)).foldr min ⊤
  let idx := pq.findIdx fun p => p.2 = m
  (pq.getD idx (0, ⊤), pq.eraseIdx idx)

/-- The bounded-Dijkstra loop of `BaseCase`:
`while pq nonempty and |U0| < K+1`.  Stale entries are skipped; settling
`u` relaxes its out-edges under `Dist[u]+w ≤ Dist[v] ∧ Dist[u]+w < B`. -/
def baseCaseLoop (c : Solver) (B : Val) :
    Nat → List Nat → List (Nat × Val) → List Val →
    Option (List Nat × List Val)
  | 0, _, _, _ => none
  | fuel + 1, U0, pq, dist =>
    if pq.length = 0 ∨ ¬ U0.length < c.K + 1 then some (U0, dist)
    else
      let (top, pq) := popMin pq
      if top.2 > dget dist top.1 then baseCaseLoop c B fuel U0 pq dist
      else
        let u := top.1
        let U0 := addSet U0 u
        let (pq, dist) :=
          (c.adj u).foldl
            (fun (acc : List (Nat × Val) × List Val) e =>
              let (pq, dist) := acc
              let nd := dget dist u + (e.Weight : Val)
              if nd ≤ dget dist e.To ∧ nd < B then
                let dist := dist.set e.To nd
                (pq ++ [(e.To, dget dist e.To)], dist)
              else acc)
            (pq, dist)
        baseCaseLoop c B fuel U0 pq dist

/-- The `maxD` computation of `BaseCase`: running maximum seeded with
`0.0`, exactly as in the source. -/
def maxDistOver (dist : List Val) (l : List Nat) : Val :=
  l.foldl (fun m u => if dget dist u > m then dget dist u else m) 0

/-- The settling phase of `BaseCase(B, S)`: seed the settled set and
the heap with `S` and run the bounded loop.  Returns the settled set
`U0` and the distance vector at loop exit. -/
def Solver.baseCaseSettled (c : Solver) (fuel : Nat) (dist : List Val)
    (B : Val) (S : List Nat) : Option (List Nat × List Val) :=
  baseCaseLoop c B fuel (S.foldl addSet []) (S.map fun x => (x, dget dist x))
    dist

/-- `BaseCase(B, S)`: run the settling phase; if at most `K` vertices
settled return `(B, U0)`, otherwise return the maximum settled distance
and the settled vertices strictly below it. -/
def Solver.baseCase (c : Solver) (fuel : Nat) (dist : List Val) (B : Val)
    (S : List Nat) : Option (Val × List Nat × List Val) :=
  match c.baseCaseSettled fuel dist B S with
  | none => none
  | some (U0, dist) =>
    if U0.length ≤ c.K then some (B, U0, dist)
    else
      let maxD := maxDistOver dist U0
      some (maxD, U0.filter (fun u => dget dist u < maxD), dist)

/-! ### BMSSP (Algorithm 3) -/

/-- `relaxEdgesSequential`: relax all out-edges of `Ui` under the `≤`
predicate, inserting into `D` on `[Bi, B)` and collecting the batch `K`
on `[Bi', Bi)`.  (`relaxEdges` dispatches to a goroutine version when
`len(Ui) > 4`; the specified core is single-threaded and every
execution analysed here takes the sequential path.)  Returns
`(K, D, dist)`. -/
def relaxEdgesSequential (c : Solver) (Ui : List Nat)
    (Bi biPrime B : Val) (D : DataStructure) (dist : List Val) :
    List Item × DataStructure × List Val :=
  Ui.foldl
    (fun acc u =>
      (c.adj u).foldl
        (fun (acc : List Item × DataStructure × List Val) e =>
          let (K, D, dist) := acc
          let newDist := dget dist u + (e.Weight : Val)
          if newDist ≤ dget dist e.To then
            let dist := dist.set e.To newDist
            if Bi ≤ newDist ∧ newDist < B then (K, D.insert e.To newDist, dist)
            else if biPrime ≤ newDist ∧ newDist < Bi then
              (K ++ [⟨e.To, newDist⟩], D, dist)
            else (K, D, dist)
          else acc)
        acc)
    ([], D, dist)

/-- `batchPrepend` step of the main loop: the collected `K` plus every
`x ∈ Si` with `Dist[x] ∈ [Bi', Bi)`. -/
def batchStep (D : DataStructure) (K : List Item) (Si : List Nat)
    (biPrime Bi : Val) (dist : List Val) : DataStructure :=
  D.batchPrepend
    (K ++ (Si.filter fun x => biPrime ≤ dget dist x ∧ dget dist x < Bi).map
      fun x => ⟨x, dget dist x⟩)

/-- `buildFinalSet`: add every `w ∈ W` with `Dist[w] < bound` not yet in
`U`. -/
def buildFinalSet (dist : List Val) (U W : List Nat) (bound : Val) :
    List Nat :=
  W.foldl (fun U w => if dget dist w < bound ∧ ¬ w ∈ U then U ++ [w] else U) U

/-- How the main loop of `BMSSP` ended: by its loop condition
(`|U| ≥ limit` or `D` drained) or by the over-limit early return, whose
carried bound `Bi'` the model records. -/
inductive ExitKind where
  | normal
  | early (biPrime : Val)
deriving DecidableEq, Repr

/-- `processMainLoop`: pull, recurse one level down (through `recurse`),
merge `Ui`, relax, batch-prepend, and early-return past the limit.
Returns the settled set, the distance vector, and how the loop ended.
(The source returns `(U, limit)`; the second component is discarded by
its only caller, and the model returns the exit evidence instead.) -/
def mainLoop (c : Solver)
    (recurse : Val → List Nat → List Val → Option (Val × List Nat × List Val))
    (B : Val) (limit : Nat) (W : List Nat) :
    Nat → DataStructure → List Nat → List Val →
    Option (List Nat × List Val × ExitKind)
  | 0, _, _, _ => none
  | fuel + 1, D, U, dist =>
    if ¬ (U.length < limit ∧ D.Count > 0) then some (U, dist, .normal)
    else
      let (items, Bi, D) := D.pull
      let Si := items.map (·.Key)
      match recurse Bi Si dist with
      | none => none
      | some (biPrime, Ui, dist) =>
        let U := Ui.foldl addSet U
        let (K, D, dist) := relaxEdgesSequential c Ui Bi biPrime B D dist
        let D := batchStep D K Si biPrime Bi dist
        if U.length > limit then
          some (buildFinalSet dist U W biPrime, dist, .early biPrime)
        else mainLoop c recurse B limit W fuel D U dist

/-- `finalizeBMSSP`: always returns the caller's bound `B`, appending
the witnesses with `Dist[w] < B` not already in `U`. -/
def finalizeBMSSP (dist : List Val) (B : Val) (W U : List Nat) :
    Val × List Nat :=
  (B, U ++ W.filter fun w => dget dist w < B ∧ ¬ w ∈ U)

/-- `initializeDataStructure`: `M := max(1, 2^((l-1)*T))` and insert
every pivot at its current distance. -/
def initDataStructure (c : Solver) (lm1 : Nat) (P : List Nat)
    (dist : List Val) : DataStructure :=
  let M := max 1 (2 ^ (lm1 * c.T))
  P.foldl (fun D x => D.insert x (dget dist x)) (newDataStructure M)

/-- `BMSSP(l, B, S)`: base case at level 0; otherwise find pivots,
run the main loop, and finalize (with the caller's `B`, whatever the
exit). -/
def Solver.bmssp (c : Solver) (fuel : Nat) :
    Nat → Val → List Nat → List Val → Option (Val × List Nat × List Val)
  | 0, B, S, dist => c.baseCase fuel dist B S
  | l + 1, B, S, dist =>
    let (P, W, dist) := c.findPivots dist B S
    if P.length = 0 then
      let r := finalizeBMSSP dist B W []
      some (r.1, r.2, dist)
    else
      let D := initDataStructure c l P dist
      let limit := c.K * 2 ^ ((l + 1) * c.T)
      match mainLoop c (fun B' S' d' => c.bmssp fuel l B' S' d') B limit W
          fuel D [] dist with
      | none => none
      | some (U, dist, _) =>
        let r := finalizeBMSSP dist B W U
        some (r.1, r.2, dist)

/-- The exit evidence of the main loop of a level-`l+1` `BMSSP` call:
recomputed along the same path `bmssp` takes (same pivots, same initial
structure, same loop). -/
def Solver.bmsspExit (c : Solver) (fuel : Nat) (l : Nat) (B : Val)
    (S : List Nat) (dist : List Val) : Option ExitKind :=
  let (P, W, dist) := c.findPivots dist B S
  if P.length = 0 then none
  else
    let D := initDataStructure c l P dist
    let limit := c.K * 2 ^ ((l + 1) * c.T)
    (mainLoop c (fun B' S' d' => c.bmssp fuel l B' S' d') B limit W
        fuel D [] dist).map (·.2.2)

/-- `Run(source)`: initialise `Dist` to `Infinity` except the source at
`0` and call `BMSSP(l, ∞, {source})`.  The level `l = ⌈ln n / T⌉` is
computed with floating-point `math.Log` in the source; the model takes
it as the argument `l`, instantiated with that value at every concrete
use. -/
def Solver.run (c : Solver) (fuel l : Nat) (source : Nat) :
    Option (List Val) :=
  let dist := (List.replicate c.G.V (⊤ : Val)).set source 0
  (c.bmssp fuel l ⊤ [source] dist).map (·.2.2)

/-- The full pipeline of the spec: transform, solve from
`start[source]`, map the distances back.  `k`, `t`, `l` are the
constants `NewSolver`/`Run` derive from `ln |V'|`. -/
def pipeline (g : Graph) (k t l fuel : Nat) (srcOrig : Nat) :
    Option (List Val) :=
  let tg := g.ToConstantDegree
  let c : Solver := ⟨tg.G, k, t⟩
  (c.run fuel l (tg.originalTo.getD srcOrig 0)).map tg.mapDistances

/-! ### Reference Dijkstra -/

/-- One settle step of the reference Dijkstra: pick the unvisited vertex
of minimal distance (if any with finite distance) and relax its
out-edges. -/
def dijkstraStep (g : Graph) (st : List Bool × List Val) :
    List Bool × List Val :=
  let (visited, dist) := st
  let cand := (List.range g.V).filter fun v => ¬ visited.getD v false
  match cand with
  | [] => st
  | c0 :: cs =>
    let u := cs.foldl (fun b v => if dget dist v < dget dist b then v else b) c0
    if dget dist u = ⊤ then st
    else
      let visited := visited.set u true
      let dist := (g.Adj.getD u []).foldl
        (fun d e =>
          if dget d u + (e.Weight : Val) < dget d e.To then
            d.set e.To (dget d u + (e.Weight : Val))
          else d)
        dist
      (visited, dist)

/-- Reference single-source Dijkstra on the original graph (the spec's
`referenceDijkstra`): `n` settle steps from `dist[src] = 0`. -/
def dijkstra (g : Graph) (src : Nat) : List Val :=
  (Nat.rec (motive := fun _ => List Bool × List Val)
    (List.replicate g.V false, (List.replicate g.V (⊤ : Val)).set src 0)
    (fun _ st => dijkstraStep g st) g.V).2

/-! ## List helpers -/

theorem getD_set_self {α : Type} (l : List α) (i : Nat) (x d : α)
    (h : i < l.length) : (l.set i x).getD i d = x := by
  induction l generalizing i with
  | nil => simp at h
  | cons a t ih =>
    cases i with
    | zero => rfl
    | succ j => exact ih j (by simpa using h)

theorem getD_set_ne {α : Type} (l : List α) (i j : Nat) (x d : α)
    (h : i ≠ j) : (l.set i x).getD j d = l.getD j d := by
  induction l generalizing i j with
  | nil => simp
  | cons a t ih =>
    cases i with
    | zero => cases j with
      | zero => exact absurd rfl h
      | succ k => rfl
    | succ m => cases j with
      | zero => rfl
      | succ k => exact ih m k (fun hh => h (by rw [hh]))

theorem foldl_prepend {α : Type} (l : List α) (init : List α) :
    l.foldl (fun acc b => b :: acc) init = l.reverse ++ init := by
  induction l generalizing init with
  | nil => rfl
  | cons a t ih => simp [List.foldl_cons, ih]

/-! ## Concrete instances for the claims -/

/-- The single-vertex graph: spec seeded scenario (b). -/
def gUnit : Graph := newGraph 1

/-- The solver over the transformed single-vertex graph.  `NewSolver`
derives `K = max(2, ⌊(ln 1)^(1/3)⌋) = 2` and `T = 2` likewise. -/
def cUnit : Solver := ⟨gUnit.ToConstantDegree.G, 2, 2⟩

/-- Claim C2's input graph: a chain `0 → 1 → … → 10` of weight-2 edges
plus two dead-end spurs `0 → 11` (weight 3) and `0 → 12` (weight 5). -/
def gC2 : Graph :=
  (((List.range 10).foldl (fun g i => g.addEdge i (i + 1) 2) (newGraph 13)
    ).addEdge 0 11 3).addEdge 0 12 5

/-- The solver for `gC2`.  `NewSolver` on 13 vertices derives
`K = max(2, ⌊(ln 13)^(1/3)⌋) = max(2,1) = 2` and
`T = max(2, ⌊(ln 13)^(2/3)⌋) = max(2,1) = 2`. -/
def cC2 : Solver := ⟨gC2, 2, 2⟩

/-- Initial distance vector for the C2 call: source 0 at distance 0. -/
def dC2 : List Val := (List.replicate 13 (⊤ : Val)).set 0 0

/-- A block sequence with `M = 1` right after
`BatchPrepend([(0, 1), (1, 2)])` on the fresh structure (the
batch-prepend precondition holds vacuously: the structure was empty). -/
def dsEx3 : DataStructure := (newDataStructure 1).batchPrepend [⟨0, 1⟩, ⟨1, 2⟩]

/-- The same state, for the block-order claim. -/
def dsEx4 : DataStructure := (newDataStructure 1).batchPrepend [⟨0, 1⟩, ⟨1, 2⟩]

/-- Four isolated vertices, solver constants `K = T = 2`. -/
def cQuad : Solver := ⟨newGraph 4, 2, 2⟩

/-- All-zero distances over `cQuad`. -/
def dQuad : List Val := [0, 0, 0, 0]

/-! ## C1: pipeline vs reference Dijkstra -/

theorem unit_loop_step (n : Nat) :
    baseCaseLoop cUnit ⊤ (n + 1) [0] [(0, (0 : Val))] [(0 : Val)]
      = baseCaseLoop cUnit ⊤ n [0] [(0, (0 : Val))] [(0 : Val)] := rfl

theorem unit_loop_none : ∀ n : Nat,
    baseCaseLoop cUnit ⊤ n [0] [(0, (0 : Val))] [(0 : Val)] = none
  | 0 => rfl
  | n + 1 => by rw [unit_loop_step]; exact unit_loop_none n

/-- C1: the claim fails at the spec's own seeded scenario (b), the
single-vertex graph with source 0.  The transform gives the lone vertex
a zero-weight self-loop; `BaseCase` pops it, re-relaxes the self-loop
(`Dist[u]+0 ≤ Dist[u]` and `< B`), re-pushes the same heap entry, and
the settled set never grows, so the loop never terminates (`none` for
every fuel) — while the reference Dijkstra returns `[0]`. -/
theorem pipeline_diverges_on_unit_graph :
    (∀ fuel : Nat, pipeline gUnit 2 2 0 fuel 0 = none)
    ∧ dijkstra gUnit 0 = [(0 : Val)] := by
  refine ⟨fun fuel => ?_, by decide⟩
  have hpipe : pipeline gUnit 2 2 0 fuel 0
      = Option.map gUnit.ToConstantDegree.mapDistances
          (Option.map (·.2.2) (cUnit.baseCase fuel [(0 : Val)] ⊤ [0])) := rfl
  have hset : cUnit.baseCaseSettled fuel [(0 : Val)] ⊤ [0] = none :=
    unit_loop_none fuel
  rw [hpipe, Solver.baseCase, hset]
  rfl

/-! ## C2: the over-limit early return of BMSSP -/

/-- C2: on `gC2` with `BMSSP(1, ∞, {0})` from the freshly initialised
distance vector, the main loop ends by the over-limit early return with
inner bound `B'ᵢ = 14`, yet the call returns bound `∞` — the caller's
`B`, because `finalizeBMSSP` always returns `B` and the early-exit bound
recorded by `processMainLoop` is discarded.  (`bmsspExit`'s first level
argument is `l - 1 = 0` for the level-1 call.) -/
theorem bmssp_early_exit_returns_caller_bound :
    cC2.bmsspExit 20 0 ⊤ [0] dC2 = some (.early 14)
    ∧ (cC2.bmssp 20 1 ⊤ [0] dC2).map (·.1) = some ⊤
    ∧ ((14 : Val) ≠ ⊤) := by decide

/-! ## C3: Pull does not return the smallest items -/

/-- C3: from the reachable state `dsEx3` (a fresh `M = 1` structure
after one valid `BatchPrepend`), `Pull` returns the item of value `2`
with boundary `1`, while the item of value `1` is still stored: the
returned item is not the smallest stored value and the boundary is
smaller than a returned value. -/
theorem pull_returns_nonminimal_item :
    dsEx3.pull = ([⟨1, (2 : Val)⟩], (1 : Val),
      { M := 1, B := ⊤, Count := 1,
        d0 := [⟨[⟨0, (1 : Val)⟩], (1 : Val)⟩], d1 := [] })
    ∧ ((1 : Val) < (2 : Val)) := by decide

/-! ## C8: no input validation -/

/-- C8 counterexample: an edge with negative weight is stored, not
refused — `AddEdge` has no error path at all.  (A NaN weight is likewise
unchecked in the source; the exact-value model carries no NaN, so the
negative weight is the representative invalid input.) -/
theorem addEdge_stores_negative_weight :
    ((newGraph 2).addEdge 0 1 (-1)).Adj.getD 0 [] = [⟨1, -1⟩]
    ∧ (newGraph 2).addEdge 0 1 (-1) ≠ newGraph 2 := by decide

/-- C8 amended: `AddEdge` performs no validation whatsoever — for every
graph, in-range source and arbitrary (negative included) weight, the
edge is appended unconditionally and no error is reported (the
operation is total). -/
theorem addEdge_no_validation (g : Graph) (u v : Nat) (w : ℤ)
    (h : u < g.Adj.length) :
    ((g.addEdge u v w).Adj.getD u [] = g.Adj.getD u [] ++ [⟨v, w⟩])
    ∧ (g.addEdge u v w).V = g.V := by
  refine ⟨?_, rfl⟩
  show ((g.Adj.set u (g.Adj.getD u [] ++ [⟨v, w⟩])).getD u []) = _
  exact getD_set_self _ _ _ _ h

/-- Witness for `addEdge_no_validation` at a concrete input. -/
theorem addEdge_no_validation_witness :
    ((0 : Nat) < (newGraph 2).Adj.length)
    ∧ (((newGraph 2).addEdge 0 1 (-7)).Adj.getD 0 [] =
        (newGraph 2).Adj.getD 0 [] ++ [⟨1, -7⟩]) :=
  ⟨by decide, (addEdge_no_validation (newGraph 2) 0 1 (-7) (by decide)).1⟩

/-! ## C10: the block sequence is total and counts exactly -/

/-- C10: neither operation checks its stated precondition or reports an
error: for every structure with `M ≥ 1` (every structure the program
builds; with `M = 0` the Go `Insert` would panic inside `split` and
`BatchPrepend` would not terminate), every key and every value —
including values at or above the bound `B` and batch items that are not
below the current minimum — `Insert` adds exactly one to `Count` and
`BatchPrepend` adds exactly the number of items given. -/
theorem blockSequence_total_counts (ds : DataStructure) (key : Nat)
    (val : Val) (items : List Item) (hM : 1 ≤ ds.M) :
    (ds.insert key val).Count = ds.Count + 1
    ∧ (ds.batchPrepend items).Count = ds.Count + items.length := by
  have split_count : ∀ (d : DataStructure) (i : Nat),
      (d.split i).Count = d.Count := fun d i => rfl
  constructor
  · simp only [DataStructure.insert]
    repeat' split
    all_goals simp [split_count]
  · simp only [DataStructure.batchPrepend]
    split
    · omega
    · simp

/-- Witness for `blockSequence_total_counts` at a concrete input: an
insert of a value equal to the bound `B = ∞` and a batch that is not
below the current minimum both succeed and count. -/
theorem blockSequence_total_counts_witness :
    (1 ≤ (newDataStructure 1).M)
    ∧ ((newDataStructure 1).insert 0 ⊤).Count = (newDataStructure 1).Count + 1
    ∧ ((newDataStructure 1).batchPrepend [⟨0, 5⟩, ⟨1, 5⟩]).Count
        = (newDataStructure 1).Count + 2 :=
  ⟨by decide,
    (blockSequence_total_counts (newDataStructure 1) 0 ⊤ [⟨0, 5⟩, ⟨1, 5⟩]
      (by decide)).1,
    (blockSequence_total_counts (newDataStructure 1) 0 ⊤ [⟨0, 5⟩, ⟨1, 5⟩]
      (by decide)).2⟩

/-! ## C4: BatchPrepend block structure -/

/-- Value order on items. -/
def vle (a b : Item) : Prop := a.Value ≤ b.Value

theorem insertSorted_perm (x : Item) (l : List Item) :
    (insertSorted x l).Perm (x :: l) := by
  induction l with
  | nil => exact List.Perm.refl _
  | cons y ys ih =>
    by_cases h : x.Value ≤ y.Value
    · simp [insertSorted, h]
    · simp only [insertSorted, if_neg h]
      exact ((ih.cons y).trans (List.Perm.swap x y ys))

theorem insertSorted_mem {z x : Item} {l : List Item}
    (h : z ∈ insertSorted x l) : z = x ∨ z ∈ l := by
  have := (insertSorted_perm x l).mem_iff.mp h
  simpa using this

theorem insertSorted_pairwise (x : Item) (l : List Item)
    (h : l.Pairwise vle) : (insertSorted x l).Pairwise vle := by
  induction l with
  | nil => simp [insertSorted, List.Pairwise]
  | cons y ys ih =>
    rcases List.pairwise_cons.mp h with ⟨hy, hys⟩
    by_cases hxy : x.Value ≤ y.Value
    · simp only [insertSorted, if_pos hxy]
      refine List.pairwise_cons.mpr ⟨?_, h⟩
      intro z hz
      rcases List.mem_cons.mp hz with rfl | hz
      · exact hxy
      · exact le_trans hxy (hy z hz)
    · simp only [insertSorted, if_neg hxy]
      refine List.pairwise_cons.mpr ⟨?_, ih hys⟩
      intro z hz
      rcases insertSorted_mem hz with rfl | hz
      · exact le_of_not_le hxy
      · exact hy z hz

theorem sortByValue_perm (l : List Item) : (sortByValue l).Perm l := by
  induction l with
  | nil => exact List.Perm.refl _
  | cons x xs ih =>
    show (insertSorted x (sortByValue xs)).Perm (x :: xs)
    exact (insertSorted_perm x (sortByValue xs)).trans (ih.cons x)

theorem sortByValue_pairwise (l : List Item) :
    (sortByValue l).Pairwise vle := by
  induction l with
  | nil => simp [sortByValue, List.Pairwise]
  | cons x xs ih => exact insertSorted_pairwise x (sortByValue xs) ih

theorem chunksOf_flatten (m : Nat) :
    ∀ (fuel : Nat) (l : List Item), l.length ≤ fuel →
      (chunksOf m fuel l).flatten = l
  | 0, l, h => by
    have : l = [] := List.eq_nil_of_length_eq_zero (Nat.le_zero.mp h)
    subst this; rfl
  | fuel + 1, [], _ => rfl
  | fuel + 1, x :: xs, h => by
    have hdrop : ((x :: xs).drop (max 1 m)).length ≤ fuel := by
      have h1 : 1 ≤ max 1 m := le_max_left 1 m
      have := List.length_drop (max 1 m) (x :: xs)
      simp only [this]
      have hlen : (x :: xs).length ≤ fuel + 1 := h
      omega
    show ((x :: xs).take (max 1 m)
        :: chunksOf m fuel ((x :: xs).drop (max 1 m))).flatten = x :: xs
    simp only [List.flatten_cons, chunksOf_flatten m fuel _ hdrop,
      List.take_append_drop]

theorem chunksOf_mem (m : Nat) :
    ∀ (fuel : Nat) (l : List Item) (c : List Item),
      c ∈ chunksOf m fuel l → c.length ≤ max 1 m ∧ c ≠ []
  | 0, _, _, h => by simp [chunksOf] at h
  | fuel + 1, [], _, h => by simp [chunksOf] at h
  | fuel + 1, x :: xs, c, h => by
    rcases List.mem_cons.mp h with rfl | h
    · constructor
      · simpa using List.length_take_le (max 1 m) (x :: xs)
      · have h1 : 1 ≤ max 1 m := le_max_left 1 m
        cases m1 : max 1 m with
        | zero => omega
        | succ k => simp
    · exact chunksOf_mem m fuel _ c h

theorem chunksOf_pairwise (m : Nat) :
    ∀ (fuel : Nat) (l : List Item) (c : List Item), l.Pairwise vle →
      c ∈ chunksOf m fuel l → c.Pairwise vle
  | 0, _, _, _, h => by simp [chunksOf] at h
  | fuel + 1, [], _, _, h => by simp [chunksOf] at h
  | fuel + 1, x :: xs, c, hp, h => by
    rcases List.mem_cons.mp h with rfl | h
    · exact hp.sublist (List.take_sublist _ _)
    · exact chunksOf_pairwise m fuel _ c (hp.sublist (List.drop_sublist _ _)) h

theorem getD_last_mem {α : Type} [Inhabited α] :
    ∀ (l : List α), l ≠ [] → l.getD (l.length - 1) default ∈ l
  | [], h => absurd rfl h
  | [_], _ => by simp [List.getD]
  | x :: y :: t, _ => by
    have heq : (x :: y :: t).getD ((x :: y :: t).length - 1) default
        = (y :: t).getD ((y :: t).length - 1) default := rfl
    rw [heq]
    exact List.mem_cons_of_mem x (getD_last_mem (y :: t) (by simp))

theorem pairwise_le_last :
    ∀ (c : List Item), c.Pairwise vle →
      ∀ x ∈ c, x.Value ≤ (c.getD (c.length - 1) default).Value
  | [], _, _, hx => absurd hx (by simp)
  | [a], _, x, hx => by
    have : x = a := by simpa using hx
    subst this
    exact le_refl _
  | a :: b :: t, hp, x, hx => by
    have heq : (a :: b :: t).getD ((a :: b :: t).length - 1) default
        = (b :: t).getD ((b :: t).length - 1) default := rfl
    rw [heq]
    rcases List.pairwise_cons.mp hp with ⟨ha, ht⟩
    rcases List.mem_cons.mp hx with rfl | hx
    · exact ha _ (getD_last_mem (b :: t) (by simp))
    · exact pairwise_le_last (b :: t) ht x hx

theorem blockOfChunk_ub (c : List Item) (hc : c ≠ [])
    (hp : c.Pairwise vle) :
    ((blockOfChunk c).upperBound ∈ c.map Item.Value)
    ∧ ∀ x ∈ c, x.Value ≤ (blockOfChunk c).upperBound := by
  have hub : (blockOfChunk c).upperBound
      = (c.getD (c.length - 1) default).Value := rfl
  exact ⟨hub ▸ List.mem_map_of_mem Item.Value (getD_last_mem c hc),
    fun x hx => hub ▸ pairwise_le_last c hp x hx⟩

/-- The blocks `BatchPrepend` creates, in chunk order. -/
def prependedBlocks (m : Nat) (items : List Item) : List Block :=
  (chunksOf m (sortByValue items).length (sortByValue items)).map blockOfChunk

/-- C4 amended: `BatchPrepend(items)` sorts the items by value, chunks
them into groups of at most `M`, wraps each chunk as one block whose
`upperBound` is the maximum value in the chunk — but the blocks are
prepended one at a time in ascending chunk order, so the new blocks sit
at the front of `D0` in reverse (descending) chunk order, followed by
the previous blocks; the front-to-back block order is not
non-decreasing. -/
theorem batchPrepend_spec (ds : DataStructure) (items : List Item)
    (hM : 1 ≤ ds.M) :
    ((ds.batchPrepend items).d0 = (prependedBlocks ds.M items).reverse ++ ds.d0)
    ∧ (ds.batchPrepend items).d1 = ds.d1
    ∧ (sortByValue items).Pairwise vle
    ∧ (sortByValue items).Perm items
    ∧ (chunksOf ds.M (sortByValue items).length (sortByValue items)).flatten
        = sortByValue items
    ∧ ∀ c ∈ chunksOf ds.M (sortByValue items).length (sortByValue items),
        c.length ≤ ds.M ∧ c ≠ []
        ∧ (blockOfChunk c).items.Perm c
        ∧ ((blockOfChunk c).upperBound ∈ c.map Item.Value)
        ∧ (∀ x ∈ c, x.Value ≤ (blockOfChunk c).upperBound) := by
  have hmax : max 1 ds.M = ds.M := max_eq_right hM
  refine ⟨?_, ?_, sortByValue_pairwise items, sortByValue_perm items,
    chunksOf_flatten ds.M _ _ (le_refl _), ?_⟩
  · simp only [DataStructure.batchPrepend]
    split
    · rename_i hlen
      have : items = [] := List.eq_nil_of_length_eq_zero hlen
      subst this
      simp [prependedBlocks, sortByValue, chunksOf]
    · simp only [prependedBlocks, foldl_prepend]
  · simp only [DataStructure.batchPrepend]
    split <;> rfl
  · intro c hc
    have hmem := chunksOf_mem ds.M _ _ c hc
    have hpw := chunksOf_pairwise ds.M _ _ c (sortByValue_pairwise items) hc
    have hub := blockOfChunk_ub c hmem.2 hpw
    exact ⟨hmax ▸ hmem.1, hmem.2, List.reverse_perm c, hub.1, hub.2⟩

/-- Witness for `batchPrepend_spec` at the concrete input of the
counterexample. -/
theorem batchPrepend_spec_witness :
    (1 ≤ (newDataStructure 1).M)
    ∧ ((newDataStructure 1).batchPrepend [⟨0, 1⟩, ⟨1, 2⟩]).d0
        = (prependedBlocks 1 [⟨0, 1⟩, ⟨1, 2⟩]).reverse ++ [] :=
  ⟨by decide,
    (batchPrepend_spec (newDataStructure 1) [⟨0, 1⟩, ⟨1, 2⟩] (by decide)).1⟩

/-- C4 counterexample: on a fresh `M = 1` structure,
`BatchPrepend([(0,1), (1,2)])` leaves the blocks of `D0` front to back
with upper bounds `[2, 1]` — strictly decreasing, not non-decreasing as
the claim states. -/
theorem batchPrepend_blocks_not_ascending :
    dsEx4.d0.map Block.upperBound = [(2 : Val), (1 : Val)]
    ∧ ¬ ((2 : Val) ≤ (1 : Val)) := by decide

/-! ## C5: BaseCase -/

theorem addSet_length (l : List Nat) (u : Nat) :
    (addSet l u).length ≤ l.length + 1 := by
  unfold addSet
  split
  · omega
  · simp

theorem foldl_addSet_length (S : List Nat) :
    ∀ init : List Nat, (S.foldl addSet init).length ≤ init.length + S.length := by
  induction S with
  | nil => simp
  | cons x xs ih =>
    intro init
    calc (List.foldl addSet (addSet init x) xs).length
        ≤ (addSet init x).length + xs.length := ih (addSet init x)
      _ ≤ init.length + 1 + xs.length := by
          have := addSet_length init x
          omega
      _ = init.length + (x :: xs).length := by simp; omega

theorem baseCaseLoop_bound (c : Solver) (B : Val) :
    ∀ (fuel : Nat) (U0 : List Nat) (pq : List (Nat × Val)) (dist : List Val)
      (U' : List Nat) (d' : List Val),
      baseCaseLoop c B fuel U0 pq dist = some (U', d') →
      U'.length ≤ max U0.length (c.K + 1)
  | 0, _, _, _, _, _, h => Option.noConfusion h
  | fuel + 1, U0, pq, dist, U', d', h => by
    rw [baseCaseLoop] at h
    split at h
    · cases h
      exact le_max_left _ _
    · rename_i hcond
      have hU0 : U0.length < c.K + 1 := by
        by_cases hpq : pq.length = 0
        · exact absurd (Or.inl hpq) hcond
        · by_cases hlt : U0.length < c.K + 1
          · exact hlt
          · exact absurd (Or.inr hlt) hcond
      rcases hpop : popMin pq with ⟨top, pq2⟩
      rw [hpop] at h
      simp only at h
      split at h
      · have := baseCaseLoop_bound c B fuel U0 pq2 dist U' d' h
        exact this
      · have hrec := baseCaseLoop_bound c B fuel _ _ _ U' d' h
        have hadd := addSet_length U0 top.1
        have : (addSet U0 top.1).length ≤ c.K + 1 := by omega
        calc U'.length ≤ max (addSet U0 top.1).length (c.K + 1) := hrec
          _ ≤ max (c.K + 1) (c.K + 1) := by
              exact max_le_max this (le_refl _)
          _ = c.K + 1 := max_self _
          _ ≤ max U0.length (c.K + 1) := le_max_right _ _

theorem maxd_ge_seed (dist : List Val) (l : List Nat) :
    ∀ s : Val, s ≤ l.foldl (fun m u => if dget dist u > m then dget dist u else m) s := by
  induction l with
  | nil => intro s; exact le_refl s
  | cons x xs ih =>
    intro s
    refine le_trans ?_ (ih _)
    show s ≤ if dget dist x > s then dget dist x else s
    split
    · exact le_of_lt (by assumption)
    · exact le_refl s

theorem maxd_ge_mem (dist : List Val) (l : List Nat) :
    ∀ (s : Val) (u : Nat), u ∈ l →
      dget dist u ≤ l.foldl (fun m v => if dget dist v > m then dget dist v else m) s := by
  induction l with
  | nil => intro _ _ h; cases h
  | cons x xs ih =>
    intro s u hu
    rcases List.mem_cons.mp hu with rfl | hu
    · refine le_trans ?_ (maxd_ge_seed dist xs _)
      show dget dist u ≤ if dget dist u > s then dget dist u else s
      split
      · exact le_refl _
      · exact le_of_not_lt (by assumption)
    · exact ih _ u hu

theorem maxd_mem_or_seed (dist : List Val) (l : List Nat) :
    ∀ s : Val,
      l.foldl (fun m v => if dget dist v > m then dget dist v else m) s = s
      ∨ l.foldl (fun m v => if dget dist v > m then dget dist v else m) s
          ∈ l.map (dget dist) := by
  induction l with
  | nil => intro s; exact Or.inl rfl
  | cons x xs ih =>
    intro s
    simp only [List.foldl_cons]
    split
    · rcases ih (dget dist x) with h | h
      · exact Or.inr (by rw [h]; simp)
      · exact Or.inr (List.mem_cons_of_mem _ h)
    · rcases ih s with h | h
      · exact Or.inl h
      · exact Or.inr (List.mem_cons_of_mem _ h)

/-- C5 amended: `BaseCase(B, S)` (for every call whose settling loop
finishes, with settled set `U₀` and exit distances `d'`) settles at most
`max(|S|, K+1)` vertices — not `K+1`: when `|S| > K+1` the loop body
never runs and all of `S` is already settled.  If `|U₀| ≤ K` the call
returns `(B, U₀)` unchanged; otherwise it returns `(B', U)` where `B'`
is the maximum of `dist[u]` over `u ∈ U₀` (the source's running maximum
seeded with `0.0`, which equals the true maximum since distances are
non-negative) and `U = { u ∈ U₀ : dist[u] < B' }`. -/
theorem baseCase_spec (c : Solver) (fuel : Nat) (dist : List Val) (B : Val)
    (S : List Nat) (U0 : List Nat) (d' : List Val)
    (hloop : c.baseCaseSettled fuel dist B S = some (U0, d'))
    (h0 : ∀ i, (0 : Val) ≤ dget d' i) :
    U0.length ≤ max S.length (c.K + 1)
    ∧ (U0.length ≤ c.K → c.baseCase fuel dist B S = some (B, U0, d'))
    ∧ (c.K < U0.length →
        c.baseCase fuel dist B S
          = some (maxDistOver d' U0,
              U0.filter (fun u => dget d' u < maxDistOver d' U0), d')
        ∧ (∀ u ∈ U0, dget d' u ≤ maxDistOver d' U0)
        ∧ maxDistOver d' U0 ∈ U0.map (dget d')) := by
  refine ⟨?_, ?_, ?_⟩
  · have h1 := baseCaseLoop_bound c B fuel (S.foldl addSet [])
      (S.map fun x => (x, dget dist x)) dist U0 d' hloop
    have h2 := foldl_addSet_length S []
    simp only [List.length_nil, Nat.zero_add] at h2
    calc U0.length ≤ max (S.foldl addSet []).length (c.K + 1) := h1
      _ ≤ max S.length (c.K + 1) := max_le_max h2 (le_refl _)
  · intro hle
    simp only [Solver.baseCase, hloop, if_pos hle]
  · intro hgt
    have hne : U0 ≠ [] := by
      intro hnil
      rw [hnil] at hgt
      simp at hgt
    refine ⟨?_, fun u hu => maxd_ge_mem d' U0 0 u hu, ?_⟩
    · simp only [Solver.baseCase, hloop, if_neg (by omega : ¬ U0.length ≤ c.K)]
    · rcases maxd_mem_or_seed d' U0 0 with h | h
      · rcases U0 with _ | ⟨u0, rest⟩
        · exact absurd rfl hne
        · have hub : dget d' u0 ≤ maxDistOver d' (u0 :: rest) :=
            maxd_ge_mem d' (u0 :: rest) 0 u0 (by simp)
          have hlb : (0 : Val) ≤ dget d' u0 := h0 u0
          have : dget d' u0 = maxDistOver d' (u0 :: rest) := by
            have hz : maxDistOver d' (u0 :: rest) = 0 := h
            rw [hz] at hub ⊢
            exact le_antisymm hub hlb
          rw [← this]
          exact List.mem_map_of_mem (dget d') (by simp)
      · exact h

/-- C5 counterexample: with `K = 2` and four sources of distance `0`
below the bound `1`, the settling phase ends with `|U₀| = 4 > K + 1 = 3`
— the claim's "settles at most k+1 vertices" fails when `|S| > K + 1`
(the loop guard only stops growth past `K + 1`, but all of `S` is
settled up front). -/
theorem baseCase_settles_more_than_k_plus_one :
    (dget dQuad 0 < (1 : Val)) ∧ (dget dQuad 1 < (1 : Val))
    ∧ (dget dQuad 2 < (1 : Val)) ∧ (dget dQuad 3 < (1 : Val))
    ∧ (cQuad.baseCaseSettled 5 dQuad 1 [0, 1, 2, 3]).map (fun r => r.1.length)
        = some 4
    ∧ ¬ ((4 : Nat) ≤ cQuad.K + 1) := by decide

/-- Witness for `baseCase_spec` at a concrete input: same state as the
counterexample; the call returns the over-`K` branch result. -/
theorem baseCase_spec_witness :
    cQuad.baseCase 5 dQuad 1 [0, 1, 2, 3] = some (0, [], dQuad) := by
  have h0 : ∀ i, (0 : Val) ≤ dget dQuad i := by
    intro i
    match i with
    | 0 => decide
    | 1 => decide
    | 2 => decide
    | 3 => decide
    | n + 4 =>
      show (0 : Val) ≤ dQuad.getD (n + 4) ⊤
      rw [List.getD_eq_default _ _ (by simp [dQuad])]
      exact le_top
  have h := (baseCase_spec cQuad 5 dQuad 1 [0, 1, 2, 3] [0, 1, 2, 3] dQuad
    (by decide) h0).2.2 (by decide)
  calc cQuad.baseCase 5 dQuad 1 [0, 1, 2, 3]
      = some (maxDistOver dQuad [0, 1, 2, 3],
          [0, 1, 2, 3].filter
            (fun u => dget dQuad u < maxDistOver dQuad [0, 1, 2, 3]), dQuad) :=
        h.1
    _ = some (0, [], dQuad) := by decide

/-! ## C7: monotone distances -/

/-- Pointwise comparison of distance vectors. -/
def distLE (d' d : List Val) : Prop := ∀ i, dget d' i ≤ dget d i

theorem distLE_refl (d : List Val) : distLE d d := fun _ => le_refl _

theorem distLE_trans {a b c : List Val} (h1 : distLE a b) (h2 : distLE b c) :
    distLE a c := fun i => le_trans (h1 i) (h2 i)

theorem distLE_set (d : List Val) (i : Nat) (v : Val)
    (h : v ≤ dget d i) : distLE (d.set i v) d := by
  intro j
  by_cases hij : i = j
  · subst hij
    by_cases hlen : i < d.length
    · show (d.set i v).getD i ⊤ ≤ _
      rw [getD_set_self d i v ⊤ hlen]
      exact h
    · show (d.set i v).getD i ⊤ ≤ d.getD i ⊤
      rw [List.getD_eq_default, List.getD_eq_default]
      · omega
      · rw [List.length_set]; omega
  · show (d.set i v).getD j ⊤ ≤ _
    rw [getD_set_ne d i j v ⊤ hij]
    exact le_refl _

theorem relaxRound_distLE (c : Solver) (B : Val) (wPrev : List Nat)
    (inW : List Bool) (wl : List Nat) (dist : List Val) :
    distLE (relaxRound c B wPrev inW wl dist).2.2.2 dist := by
  unfold relaxRound
  apply List.foldlRecOn
    (motive := fun st : List Nat × List Bool × List Nat × List Val =>
      distLE st.2.2.2 dist)
  · exact distLE_refl dist
  · intro st hst u _
    apply List.foldlRecOn
      (motive := fun st2 : List Nat × List Bool × List Nat × List Val =>
        distLE st2.2.2.2 dist)
    · exact hst
    · intro st2 hst2 e _
      rcases st2 with ⟨wi, inW2, wl2, dist2⟩
      simp only
      split
      · rename_i hlt
        split
        · exact distLE_trans (distLE_set dist2 _ _ (le_of_lt hlt)) hst2
        · exact distLE_trans (distLE_set dist2 _ _ (le_of_lt hlt)) hst2
      · exact hst2

theorem relaxKStepsAux_distLE (c : Solver) (B : Val) (kS : Nat) :
    ∀ (n : Nat) (wPrev : List Nat) (inW : List Bool) (wl : List Nat)
      (dist : List Val),
      distLE (relaxKStepsAux c B kS n wPrev inW wl dist).2.2 dist
  | 0, _, _, _, dist => distLE_refl dist
  | n + 1, wPrev, inW, wl, dist => by
    rw [relaxKStepsAux]
    rcases hr : relaxRound c B wPrev inW wl dist with ⟨wi, inW2, wl2, dist2⟩
    have h1 : distLE dist2 dist := by
      have := relaxRound_distLE c B wPrev inW wl dist
      rw [hr] at this
      exact this
    simp only
    split
    · exact h1
    · exact distLE_trans
        (relaxKStepsAux_distLE c B kS n wi inW2 wl2 dist2) h1

theorem relaxEdgesSequential_distLE (c : Solver) (Ui : List Nat)
    (Bi bp B : Val) (D : DataStructure) (dist : List Val) :
    distLE (relaxEdgesSequential c Ui Bi bp B D dist).2.2 dist := by
  unfold relaxEdgesSequential
  apply List.foldlRecOn
    (motive := fun st : List Item × DataStructure × List Val =>
      distLE st.2.2 dist)
  · exact distLE_refl dist
  · intro st hst u _
    apply List.foldlRecOn
      (motive := fun st2 : List Item × DataStructure × List Val =>
        distLE st2.2.2 dist)
    · exact hst
    · intro st2 hst2 e _
      rcases st2 with ⟨K, D2, dist2⟩
      simp only
      split
      · rename_i hle
        split
        · exact distLE_trans (distLE_set dist2 _ _ hle) hst2
        · split
          · exact distLE_trans (distLE_set dist2 _ _ hle) hst2
          · exact distLE_trans (distLE_set dist2 _ _ hle) hst2
      · exact hst2

theorem baseEdgeFold_distLE (c : Solver) (B : Val) (u : Nat)
    (pq : List (Nat × Val)) (dist : List Val) :
    distLE ((c.adj u).foldl
      (fun (acc : List (Nat × Val) × List Val) e =>
        let nd := dget acc.2 u + (e.Weight : Val)
        if nd ≤ dget acc.2 e.To ∧ nd < B then
          (acc.1 ++ [(e.To, dget (acc.2.set e.To nd) e.To)], acc.2.set e.To nd)
        else acc)
      (pq, dist)).2 dist := by
  apply List.foldlRecOn
    (motive := fun st : List (Nat × Val) × List Val => distLE st.2 dist)
  · exact distLE_refl dist
  · intro st hst e _
    simp only
    split
    · rename_i hle
      exact distLE_trans (distLE_set st.2 _ _ hle.1) hst
    · exact hst

theorem baseCaseLoop_distLE (c : Solver) (B : Val) :
    ∀ (fuel : Nat) (U0 : List Nat) (pq : List (Nat × Val)) (dist : List Val)
      (r : List Nat × List Val),
      baseCaseLoop c B fuel U0 pq dist = some r → distLE r.2 dist
  | 0, _, _, _, _, h => Option.noConfusion h
  | fuel + 1, U0, pq, dist, r, h => by
    rw [baseCaseLoop] at h
    split at h
    · cases h
      exact distLE_refl dist
    · rcases hpop : popMin pq with ⟨top, pq2⟩
      rw [hpop] at h
      simp only at h
      split at h
      · exact baseCaseLoop_distLE c B fuel U0 pq2 dist r h
      · rcases hf : (c.adj top.1).foldl
            (fun (acc : List (Nat × Val) × List Val) e =>
              let nd := dget acc.2 top.1 + (e.Weight : Val)
              if nd ≤ dget acc.2 e.To ∧ nd < B then
                (acc.1 ++ [(e.To, dget (acc.2.set e.To nd) e.To)],
                  acc.2.set e.To nd)
              else acc)
            (pq2, dist) with ⟨pq3, dist3⟩
        rw [hf] at h
        simp only at h
        have h2 : distLE dist3 dist := by
          have := baseEdgeFold_distLE c B top.1 pq2 dist
          rw [hf] at this
          exact this
        exact distLE_trans
          (baseCaseLoop_distLE c B fuel _ pq3 dist3 r h) h2

theorem findPivots_distLE (c : Solver) (dist : List Val) (B : Val)
    (S : List Nat) : distLE (c.findPivots dist B S).2.2 dist := by
  unfold Solver.findPivots
  simp only
  split
  · exact relaxKStepsAux_distLE c B (c.K * S.length) c.K S
      (S.foldl (fun a x => a.set x true) (List.replicate c.G.V false)) S dist
  · exact relaxKStepsAux_distLE c B (c.K * S.length) c.K S
      (S.foldl (fun a x => a.set x true) (List.replicate c.G.V false)) S dist

theorem mainLoop_distLE (c : Solver)
    (recurse : Val → List Nat → List Val → Option (Val × List Nat × List Val))
    (B : Val) (limit : Nat) (W : List Nat)
    (hrec : ∀ Bi Si d r, recurse Bi Si d = some r → distLE r.2.2 d) :
    ∀ (fuel : Nat) (D : DataStructure) (U : List Nat) (dist : List Val)
      (r : List Nat × List Val × ExitKind),
      mainLoop c recurse B limit W fuel D U dist = some r →
      distLE r.2.1 dist
  | 0, _, _, _, _, h => Option.noConfusion h
  | fuel + 1, D, U, dist, r, h => by
    rw [mainLoop] at h
    split at h
    · cases h
      exact distLE_refl dist
    · rcases hpull : D.pull with ⟨items, Bi, D2⟩
      rw [hpull] at h
      simp only at h
      rcases hrc : recurse Bi (items.map (·.Key)) dist with _ | res
      · rw [hrc] at h
        cases h
      · rw [hrc] at h
        simp only at h
        have h1 : distLE res.2.2 dist := hrec Bi _ dist res hrc
        rcases hrel : relaxEdgesSequential c res.2.1 Bi res.1 B D2 res.2.2
          with ⟨K2, D3, dist3⟩
        rw [hrel] at h
        simp only at h
        have h2 : distLE dist3 res.2.2 := by
          have := relaxEdgesSequential_distLE c res.2.1 Bi res.1 B D2 res.2.2
          rw [hrel] at this
          exact this
        split at h
        · cases h
          exact distLE_trans h2 h1
        · exact distLE_trans
            (mainLoop_distLE c recurse B limit W hrec fuel _ _ dist3 r h)
            (distLE_trans h2 h1)

theorem bmssp_distLE (c : Solver) (fuel : Nat) :
    ∀ (l : Nat) (B : Val) (S : List Nat) (dist : List Val)
      (r : Val × List Nat × List Val),
      c.bmssp fuel l B S dist = some r → distLE r.2.2 dist := by
  intro l
  induction l with
  | zero =>
    intro B S dist r h
    rw [Solver.bmssp, Solver.baseCase] at h
    rcases hs : c.baseCaseSettled fuel dist B S with _ | s
    · rw [hs] at h
      cases h
    · rw [hs] at h
      have h1 : distLE s.2 dist :=
        baseCaseLoop_distLE c B fuel _ _ dist s hs
      rcases s with ⟨U0, d2⟩
      simp only at h
      split at h
      · cases h
        exact h1
      · cases h
        exact h1
  | succ l ih =>
    intro B S dist r h
    rw [Solver.bmssp] at h
    rcases hfp : c.findPivots dist B S with ⟨P, W, dist2⟩
    rw [hfp] at h
    simp only at h
    have h1 : distLE dist2 dist := by
      have := findPivots_distLE c dist B S
      rw [hfp] at this
      exact this
    split at h
    · cases h
      exact h1
    · rcases hml : mainLoop c (fun B' S' d' => c.bmssp fuel l B' S' d') B
          (c.K * 2 ^ ((l + 1) * c.T)) W fuel
          (initDataStructure c l P dist2) [] dist2
        with _ | m
      · rw [hml] at h
        cases h
      · rw [hml] at h
        rcases m with ⟨U, dist3, ek⟩
        simp only at h
        cases h
        exact distLE_trans
          (mainLoop_distLE c _ B _ W (fun Bi Si d rr hh => ih Bi Si d rr hh)
            fuel _ [] dist2 (U, dist3, ek) hml)
          h1

/-- C7: distances never increase.  Every write to `Dist` in the source
is guarded by a comparison against the value it overwrites
(`<` in `relaxKSteps`, `≤` in `relaxEdgesSequential` and in the
`BaseCase` loop), so each relaxation pass — and hence the whole
recursion — produces a pointwise `≤` distance vector: the pivot-finding
relaxation, the BMSSP edge relaxation, the base-case loop, and any
completed `BMSSP` call are all pointwise non-increasing on `Dist`. -/
theorem dist_monotone_during_run :
    (∀ (c : Solver) (B : Val) (kS n : Nat) (wPrev : List Nat)
        (inW : List Bool) (wl : List Nat) (dist : List Val),
        distLE (relaxKStepsAux c B kS n wPrev inW wl dist).2.2 dist)
    ∧ (∀ (c : Solver) (Ui : List Nat) (Bi bp B : Val) (D : DataStructure)
        (dist : List Val),
        distLE (relaxEdgesSequential c Ui Bi bp B D dist).2.2 dist)
    ∧ (∀ (c : Solver) (B : Val) (fuel : Nat) (U0 : List Nat)
        (pq : List (Nat × Val)) (dist : List Val) (r : List Nat × List Val),
        baseCaseLoop c B fuel U0 pq dist = some r → distLE r.2 dist)
    ∧ (∀ (c : Solver) (fuel l : Nat) (B : Val) (S : List Nat)
        (dist : List Val) (r : Val × List Nat × List Val),
        c.bmssp fuel l B S dist = some r → distLE r.2.2 dist) :=
  ⟨fun c B kS n wPrev inW wl dist =>
      relaxKStepsAux_distLE c B kS n wPrev inW wl dist,
    fun c Ui Bi bp B D dist => relaxEdgesSequential_distLE c Ui Bi bp B D dist,
    fun c B fuel U0 pq dist r h => baseCaseLoop_distLE c B fuel U0 pq dist r h,
    fun c fuel l B S dist r h => bmssp_distLE c fuel l B S dist r h⟩

/-- Two vertices, one edge `0 → 1` of weight 1. -/
def gPair : Graph := (newGraph 2).addEdge 0 1 1

/-- Solver over `gPair` with the derived constants `K = T = 2`. -/
def cPair : Solver := ⟨gPair, 2, 2⟩

/-- Witness for `dist_monotone_during_run`: a completed level-1 `BMSSP`
call on `gPair`, with the hypothesis discharged at the concrete result;
the conclusion is instantiated at index 1. -/
theorem dist_monotone_during_run_witness :
    dget [(0 : Val), (1 : Val)] 1 ≤ dget [(0 : Val), ⊤] 1 :=
  dist_monotone_during_run.2.2.2 cPair 10 1 ⊤ [0] [(0 : Val), ⊤]
    (⊤, [0, 1], [(0 : Val), (1 : Val)]) (by decide) 1

/-! ## C6: FindPivots -/

/-- Invariant tying the `inW` marker array to the witness list `wl`:
right length, markers exactly the members of `wl`, members in range. -/
def InvW (V : Nat) (inW : List Bool) (wl : List Nat) : Prop :=
  inW.length = V ∧ (∀ v, inW.getD v false = true ↔ v ∈ wl)
  ∧ ∀ v ∈ wl, v < V

theorem adj_targets_lt (c : Solver) (hwf : c.G.WF) (u : Nat) :
    ∀ e ∈ c.adj u, e.To < c.G.V := by
  intro e he
  unfold Solver.adj at he
  by_cases h : u < c.G.Adj.length
  · rw [List.getD_eq_getElem _ _ h] at he
    exact hwf.2 _ (List.getElem_mem h) e he
  · rw [List.getD_eq_default _ _ (by omega)] at he
    cases he

theorem getD_replicate_false (V v : Nat) :
    (List.replicate V false).getD v false = false := by
  by_cases h : v < V
  · rw [List.getD_eq_getElem _ _ (by simpa using h)]
    simp
  · rw [List.getD_eq_default]
    simpa using h

theorem mark_fold_inv (V : Nat) (S : List Nat) (hS : ∀ x ∈ S, x < V) :
    InvW V (S.foldl (fun a x => a.set x true) (List.replicate V false)) S := by
  have hlen : ∀ (S' : List Nat) (acc : List Bool),
      (S'.foldl (fun a x => a.set x true) acc).length = acc.length := by
    intro S'
    induction S' with
    | nil => intro acc; rfl
    | cons x xs ih => intro acc; rw [List.foldl_cons, ih, List.length_set]
  have hmem : ∀ (S' : List Nat) (acc : List Bool) (v : Nat),
      ((S'.foldl (fun a x => a.set x true) acc).getD v false = true)
      ↔ ((v ∈ S' ∧ v < acc.length) ∨ acc.getD v false = true) := by
    intro S'
    induction S' with
    | nil => intro acc v; simp
    | cons x xs ih =>
      intro acc v
      rw [List.foldl_cons, ih]
      constructor
      · rintro (⟨hv, hlt⟩ | hacc)
        · rw [List.length_set] at hlt
          exact Or.inl ⟨List.mem_cons_of_mem x hv, hlt⟩
        · by_cases hxv : x = v
          · subst hxv
            by_cases hlt : x < acc.length
            · exact Or.inl ⟨List.mem_cons_self x xs, hlt⟩
            · rw [List.set_eq_of_length_le (by omega)] at hacc
              exact Or.inr hacc
          · rw [getD_set_ne acc x v true false hxv] at hacc
            exact Or.inr hacc
      · rintro (⟨hv, hlt⟩ | hacc)
        · rcases List.mem_cons.mp hv with rfl | hv
          · refine Or.inr ?_
            rw [getD_set_self acc v true false hlt]
          · exact Or.inl ⟨hv, by rw [List.length_set]; exact hlt⟩
        · by_cases hxv : x = v
          · subst hxv
            by_cases hlt : x < acc.length
            · refine Or.inr ?_
              rw [getD_set_self acc x true false hlt]
            · refine Or.inr ?_
              rw [List.set_eq_of_length_le (by omega)]
              exact hacc
          · refine Or.inr ?_
            rw [getD_set_ne acc x v true false hxv]
            exact hacc
  refine ⟨by rw [hlen]; exact List.length_replicate V false, ?_, hS⟩
  intro v
  rw [hmem]
  constructor
  · rintro (⟨hv, _⟩ | hacc)
    · exact hv
    · rw [getD_replicate_false] at hacc
      cases hacc
  · intro hv
    exact Or.inl ⟨hv, by rw [List.length_replicate]; exact hS v hv⟩

theorem relaxRound_inv (c : Solver) (hwf : c.G.WF) (B : Val)
    (wPrev : List Nat) (inW : List Bool) (wl : List Nat) (dist : List Val)
    (hInv : InvW c.G.V inW wl) :
    InvW c.G.V (relaxRound c B wPrev inW wl dist).2.1
        (relaxRound c B wPrev inW wl dist).2.2.1
    ∧ ∀ v ∈ wl, v ∈ (relaxRound c B wPrev inW wl dist).2.2.1 := by
  unfold relaxRound
  apply List.foldlRecOn
    (motive := fun st : List Nat × List Bool × List Nat × List Val =>
      InvW c.G.V st.2.1 st.2.2.1 ∧ ∀ v ∈ wl, v ∈ st.2.2.1)
  · exact ⟨hInv, fun v hv => hv⟩
  · intro st hst u _
    apply List.foldlRecOn
      (motive := fun st2 : List Nat × List Bool × List Nat × List Val =>
        InvW c.G.V st2.2.1 st2.2.2.1 ∧ ∀ v ∈ wl, v ∈ st2.2.2.1)
    · exact hst
    · intro st2 hst2 e he
      rcases st2 with ⟨wi2, inW2, wl2, dist2⟩
      rcases hst2 with ⟨⟨hlen2, hmark2, hrange2⟩, hext2⟩
      simp only
      split
      · split
        · rename_i hcond
          have hTo : e.To < c.G.V := adj_targets_lt c hwf u e he
          refine ⟨⟨by rw [List.length_set]; exact hlen2, ?_, ?_⟩, ?_⟩
          · intro v
            by_cases hv : e.To = v
            · subst hv
              rw [getD_set_self inW2 e.To true false (by rw [hlen2]; exact hTo)]
              simp
            · rw [getD_set_ne inW2 e.To v true false hv]
              rw [hmark2]
              constructor
              · intro h
                exact List.mem_append_left _ h
              · intro h
                rcases List.mem_append.mp h with h | h
                · exact h
                · simp at h
                  exact absurd h.symm hv
          · intro v hv
            rcases List.mem_append.mp hv with hv | hv
            · exact hrange2 v hv
            · simp at hv
              subst hv
              exact hTo
          · intro v hv
            exact List.mem_append_left _ (hext2 v hv)
        · exact ⟨⟨hlen2, hmark2, hrange2⟩, hext2⟩
      · exact ⟨⟨hlen2, hmark2, hrange2⟩, hext2⟩

theorem relaxKStepsAux_inv (c : Solver) (hwf : c.G.WF) (B : Val) (kS : Nat) :
    ∀ (n : Nat) (wPrev : List Nat) (inW : List Bool) (wl : List Nat)
      (dist : List Val), InvW c.G.V inW wl →
      InvW c.G.V (relaxKStepsAux c B kS n wPrev inW wl dist).1
          (relaxKStepsAux c B kS n wPrev inW wl dist).2.1
      ∧ ∀ v ∈ wl, v ∈ (relaxKStepsAux c B kS n wPrev inW wl dist).2.1
  | 0, _, _, wl, dist, hInv => ⟨hInv, fun v hv => hv⟩
  | n + 1, wPrev, inW, wl, dist, hInv => by
    rw [relaxKStepsAux]
    rcases hr : relaxRound c B wPrev inW wl dist with ⟨wi2, inW2, wl2, dist2⟩
    have hround := relaxRound_inv c hwf B wPrev inW wl dist hInv
    rw [hr] at hround
    simp only
    split
    · exact hround
    · have hrec := relaxKStepsAux_inv c hwf B kS n wi2 inW2 wl2 dist2 hround.1
      exact ⟨hrec.1, fun v hv => hrec.2 v (hround.2 v hv)⟩

theorem subtreeSizes_fst (c : Solver) (dist : List Val) (inWf : Nat → Bool) :
    ∀ (S : List Nat) (memo : List Int) (acc : List (Nat × Nat)),
      ((S.foldl
        (fun (a : List (Nat × Nat) × List Int) u =>
          let r := calcSize c dist inWf (c.G.V + 1) u a.2
          (a.1 ++ [(u, r.1)], r.2))
        (acc, memo)).1).map (·.1) = acc.map (·.1) ++ S
  | [], _, acc => by simp
  | u :: us, memo, acc => by
    rw [List.foldl_cons]
    have := subtreeSizes_fst c dist inWf us
      (calcSize c dist inWf (c.G.V + 1) u memo).2
      (acc ++ [(u, (calcSize c dist inWf (c.G.V + 1) u memo).1)])
    simp only at this ⊢
    rw [this]
    simp

theorem computePivots_eq (c : Solver) (dist : List Val) (inWf : Nat → Bool) :
    ∀ (S : List Nat) (memo : List Int) (accP : List Nat)
      (accS : List (Nat × Nat)),
      accP = (accS.filter (fun p => c.K ≤ p.2)).map (·.1) →
      (S.foldl
        (fun (a : List Nat × List Int) u =>
          let r := calcSize c dist inWf (c.G.V + 1) u a.2
          (if r.1 ≥ c.K then a.1 ++ [u] else a.1, r.2))
        (accP, memo)).1
      = (((S.foldl
          (fun (a : List (Nat × Nat) × List Int) u =>
            let r := calcSize c dist inWf (c.G.V + 1) u a.2
            (a.1 ++ [(u, r.1)], r.2))
          (accS, memo)).1).filter (fun p => c.K ≤ p.2)).map (·.1)
  | [], _, accP, accS, hacc => hacc
  | u :: us, memo, accP, accS, hacc => by
    rw [List.foldl_cons, List.foldl_cons]
    simp only
    apply computePivots_eq c dist inWf us
    rw [List.filter_append, List.map_append, hacc]
    by_cases hk : c.K ≤ (calcSize c dist inWf (c.G.V + 1) u memo).1
    · rw [if_pos hk]
      simp [hk]
    · rw [if_neg hk]
      simp [hk]

theorem computePivots_subset (c : Solver) (dist : List Val)
    (inWf : Nat → Bool) :
    ∀ (S : List Nat) (memo : List Int) (accP : List Nat),
      ∀ x ∈ (S.foldl
        (fun (a : List Nat × List Int) u =>
          let r := calcSize c dist inWf (c.G.V + 1) u a.2
          (if r.1 ≥ c.K then a.1 ++ [u] else a.1, r.2))
        (accP, memo)).1, x ∈ accP ∨ x ∈ S
  | [], _, accP, x, hx => Or.inl hx
  | u :: us, memo, accP, x, hx => by
    rw [List.foldl_cons] at hx
    simp only at hx
    rcases computePivots_subset c dist inWf us _ _ x hx with h | h
    · split at h
      · rcases List.mem_append.mp h with h | h
        · exact Or.inl h
        · simp at h
          subst h
          exact Or.inr (List.mem_cons_self x us)
      · exact Or.inl h
    · exact Or.inr (List.mem_cons_of_mem u h)

/-- C6: for every `FindPivots(B, S)` call on a well-formed graph with
in-range sources below the bound: the witness set `W` contains `S`; the
pivot set `P` is contained in `S`; if `W` outgrew `K·|S|` then `P = S`
and `W` is the witness set collected so far; otherwise `P` is exactly
the set of `s ∈ S` whose memoised subtree size in the ε-tolerance
shortest-path forest over `W` (the shared-memo run `subtreeSizes`,
membership taken in the returned `W` itself) is at least `K`. -/
theorem findPivots_spec (c : Solver) (dist : List Val) (B : Val)
    (S P W : List Nat) (d' : List Val)
    (hwf : c.G.WF) (hS : ∀ x ∈ S, x < c.G.V)
    (hB : ∀ x ∈ S, dget dist x < B)
    (h : c.findPivots dist B S = (P, W, d')) :
    (∀ x ∈ S, x ∈ W) ∧ (∀ x ∈ P, x ∈ S)
    ∧ (c.K * S.length < W.length → P = S)
    ∧ (W.length ≤ c.K * S.length →
        P = ((subtreeSizes c d' (fun v => decide (v ∈ W)) S).filter
              (fun p => c.K ≤ p.2)).map (·.1)
        ∧ (subtreeSizes c d' (fun v => decide (v ∈ W)) S).map (·.1) = S) := by
  have hInit : InvW c.G.V
      (S.foldl (fun a x => a.set x true) (List.replicate c.G.V false)) S :=
    mark_fold_inv c.G.V S hS
  rw [Solver.findPivots] at h
  generalize hgen : relaxKStepsAux c B (c.K * S.length) c.K S
      (S.foldl (fun a x => a.set x true) (List.replicate c.G.V false)) S dist
      = res at h
  have hInv := relaxKStepsAux_inv c hwf B (c.K * S.length) c.K S
    (S.foldl (fun a x => a.set x true) (List.replicate c.G.V false)) S dist
    hInit
  rw [hgen] at hInv
  rcases res with ⟨inW2, wl2, dist2⟩
  rcases hInv with ⟨⟨hlen2, hmark2, _⟩, hext2⟩
  simp only at h
  split at h
  · rename_i hbig
    injection h with h1 h23
    injection h23 with h2 h3
    subst h1
    subst h2
    subst h3
    refine ⟨hext2, fun x hx => hx, fun _ => rfl, fun hsm => absurd hbig (by omega)⟩
  · rename_i hsmall
    injection h with h1 h23
    injection h23 with h2 h3
    subst h1
    subst h2
    subst h3
    refine ⟨hext2, ?_, fun hbig => absurd hbig (by omega), ?_⟩
    · intro x hx
      rcases computePivots_subset c dist2 _ S _ [] x hx with h | h
      · cases h
      · exact h
    · intro _
      have hfun : (fun v => inW2.getD v false) = fun v => decide (v ∈ wl2) := by
        funext v
        by_cases hv : v ∈ wl2
        · rw [(hmark2 v).mpr hv]
          simp [hv]
        · have hm : ¬ inW2.getD v false = true := fun hm => hv ((hmark2 v).mp hm)
          simp only [hv, decide_eq_false_iff_not]
          exact Bool.eq_false_iff.mpr hm
      constructor
      · show computePivots c dist2 S (fun v => inW2.getD v false) = _
        rw [hfun]
        exact computePivots_eq c dist2 _ S (List.replicate c.G.V 0) [] [] rfl
      · exact subtreeSizes_fst c dist2 _ S (List.replicate c.G.V 0) []

/-- Witness for `findPivots_spec`: `gPair` with source 0 below `⊤`. -/
theorem findPivots_spec_witness :
    cPair.findPivots [(0 : Val), ⊤] ⊤ [0] = ([0], [0, 1], [(0 : Val), 1])
    ∧ (∀ x ∈ [0], x ∈ [0, 1]) :=
  ⟨by decide,
    (findPivots_spec cPair [(0 : Val), ⊤] ⊤ [0] [0] [0, 1] [(0 : Val), 1]
      ⟨by decide, by decide⟩ (by decide) (by decide) (by decide)).1⟩

/-! ## C9: degree bound of the transform -/

theorem cycSize_pos (g : Graph) (u : Nat) : 1 ≤ g.cycSize u := by
  show 1 ≤ if (g.Adj.getD u []).length + g.inDegrees.getD u 0 = 0 then 1
    else (g.Adj.getD u []).length + g.inDegrees.getD u 0
  split <;> omega

theorem cycStart_succ (g : Graph) (u : Nat) :
    g.cycStart (u + 1) = g.cycStart u + g.cycSize u := by
  unfold Graph.cycStart
  rw [List.range_succ, List.map_append, List.sum_append]
  simp

theorem cycStart_mono (g : Graph) (u v : Nat) (h : u ≤ v) :
    g.cycStart u ≤ g.cycStart v := by
  induction v, h using Nat.le_induction with
  | base => exact le_refl _
  | succ n hn ih =>
    rw [cycStart_succ]
    omega

theorem cycStart_block_le (g : Graph) (u v : Nat) (h : u < v) :
    g.cycStart u + g.cycSize u ≤ g.cycStart v := by
  rw [← cycStart_succ]
  exact cycStart_mono g (u + 1) v h

theorem totalV_eq_cycStart (g : Graph) : g.TotalV = g.cycStart g.V := rfl

theorem countP_range_shift (s n x : Nat) :
    (List.range n).countP (fun i => s + i = x)
      = if s ≤ x ∧ x < s + n then 1 else 0 := by
  induction n with
  | zero =>
    rw [if_neg (by omega)]
    rfl
  | succ n ih =>
    rw [List.range_succ, List.countP_append, ih]
    have hsing : List.countP (fun i => decide (s + i = x)) [n]
        = if s + n = x then 1 else 0 := by
      rw [List.countP_cons, List.countP_nil]
      by_cases h : s + n = x
      · simp [h]
      · simp [h]
    rw [hsing]
    split_ifs with h1 h2 h3 h4 <;> omega

theorem countP_range_mod (s sz x : Nat) (hsz : 1 ≤ sz) :
    (List.range sz).countP (fun i => s + (i + 1) % sz = x)
      = if s ≤ x ∧ x < s + sz then 1 else 0 := by
  obtain ⟨m, rfl⟩ : ∃ m, sz = m + 1 := ⟨sz - 1, by omega⟩
  rw [List.range_succ, List.countP_append]
  have h1 : (List.range m).countP (fun i => s + (i + 1) % (m + 1) = x)
      = (List.range m).countP (fun i => (s + 1) + i = x) := by
    apply List.countP_congr
    intro i hi
    have him : i < m := List.mem_range.mp hi
    have hm : (i + 1) % (m + 1) = i + 1 := Nat.mod_eq_of_lt (by omega)
    rw [hm]
    simp only [decide_eq_true_eq]
    omega
  rw [h1, countP_range_shift]
  have h2 : List.countP (fun i => decide (s + (i + 1) % (m + 1) = x)) [m]
      = if s = x then 1 else 0 := by
    rw [List.countP_cons, List.countP_nil]
    have hmod : (m + 1) % (m + 1) = 0 := Nat.mod_self _
    by_cases h : s = x
    · simp [hmod, h]
    · simp [hmod, h]
  rw [h2]
  split_ifs with h1 h2 h3 h4 <;> omega

theorem cycle_tiling (g : Graph) (x : Nat) (f : Nat → Nat)
    (hf : ∀ u, f u = if g.cycStart u ≤ x ∧ x < g.cycStart u + g.cycSize u
      then 1 else 0) :
    ∀ n, ((List.range n).map f).sum = if x < g.cycStart n then 1 else 0 := by
  intro n
  induction n with
  | zero =>
    rw [if_neg (by unfold Graph.cycStart; simp)]
    rfl
  | succ n ih =>
    rw [List.range_succ, List.map_append, List.sum_append, ih]
    have hmono := cycStart_succ g n
    have hpos := cycSize_pos g n
    simp only [List.map_cons, List.map_nil, List.sum_cons, List.sum_nil,
      Nat.add_zero, hf n]
    split_ifs with h1 h2 h3 h4 h5 h6 <;> omega

theorem countP_cycle_src (g : Graph) (x : Nat) :
    g.cycleEdges.countP (fun e => e.1 = x)
      = if x < g.TotalV then 1 else 0 := by
  unfold Graph.cycleEdges
  rw [List.countP_flatMap, totalV_eq_cycStart]
  apply cycle_tiling g x
  intro u
  show ((List.range (g.cycSize u)).map fun i =>
      ((g.cycStart u + i : Nat), (g.cycStart u + (i + 1) % g.cycSize u : Nat),
        (0 : ℤ))).countP (fun e => decide (e.1 = x)) = _
  rw [List.countP_map]
  have : ((fun (e : TEdge) => decide (e.1 = x)) ∘ fun i =>
      ((g.cycStart u + i : Nat), (g.cycStart u + (i + 1) % g.cycSize u : Nat),
        (0 : ℤ)))
      = fun i => decide (g.cycStart u + i = x) := rfl
  rw [this, countP_range_shift]

theorem countP_cycle_tgt (g : Graph) (x : Nat) :
    g.cycleEdges.countP (fun e => e.2.1 = x)
      = if x < g.TotalV then 1 else 0 := by
  unfold Graph.cycleEdges
  rw [List.countP_flatMap, totalV_eq_cycStart]
  apply cycle_tiling g x
  intro u
  show ((List.range (g.cycSize u)).map fun i =>
      ((g.cycStart u + i : Nat), (g.cycStart u + (i + 1) % g.cycSize u : Nat),
        (0 : ℤ))).countP (fun e => decide (e.2.1 = x)) = _
  rw [List.countP_map]
  have : ((fun (e : TEdge) => decide (e.2.1 = x)) ∘ fun i =>
      ((g.cycStart u + i : Nat), (g.cycStart u + (i + 1) % g.cycSize u : Nat),
        (0 : ℤ)))
      = fun i => decide (g.cycStart u + (i + 1) % g.cycSize u = x) := rfl
  rw [this, countP_range_mod _ _ _ (cycSize_pos g u)]

/-- Out-degree of a vertex of a graph: length of its adjacency row. -/
def outDegT (h : Graph) (x : Nat) : Nat := (h.Adj.getD x []).length

/-- In-degree of a vertex of a graph: number of edges targeting it. -/
def inDegT (h : Graph) (x : Nat) : Nat :=
  h.allEdges.countP (fun ue => ue.2.To = x)

theorem newGraph_row (n x : Nat) : (newGraph n).Adj.getD x [] = [] := by
  unfold newGraph
  by_cases h : x < n
  · rw [List.getD_eq_getElem _ _ (by simpa using h)]
    simp
  · rw [List.getD_eq_default]
    simpa using h

theorem addEdge_V (h : Graph) (u v : Nat) (w : ℤ) :
    (h.addEdge u v w).V = h.V := rfl

theorem addEdge_len (h : Graph) (u v : Nat) (w : ℤ) :
    (h.addEdge u v w).Adj.length = h.Adj.length := by
  unfold Graph.addEdge
  simp [List.length_set]

theorem fold_addEdge_len :
    ∀ (L : List TEdge) (base : Graph),
      (L.foldl (fun h e => h.addEdge e.1 e.2.1 e.2.2) base).Adj.length
        = base.Adj.length
  | [], _ => rfl
  | e :: L', base => by
    rw [List.foldl_cons, fold_addEdge_len L', addEdge_len]

theorem fold_addEdge_V :
    ∀ (L : List TEdge) (base : Graph),
      (L.foldl (fun h e => h.addEdge e.1 e.2.1 e.2.2) base).V = base.V
  | [], _ => rfl
  | e :: L', base => by
    rw [List.foldl_cons, fold_addEdge_V L', addEdge_V]

theorem fold_addEdge_row :
    ∀ (L : List TEdge) (base : Graph), (∀ e ∈ L, e.1 < base.Adj.length) → ∀ x,
      (L.foldl (fun h e => h.addEdge e.1 e.2.1 e.2.2) base).Adj.getD x []
        = base.Adj.getD x []
          ++ (L.filter (fun e => e.1 = x)).map (fun e => Edge.mk e.2.1 e.2.2)
  | [], _, _, x => by simp
  | e :: L', base, hsrc, x => by
    rw [List.foldl_cons]
    have hlen := addEdge_len base e.1 e.2.1 e.2.2
    have hrec := fold_addEdge_row L' (base.addEdge e.1 e.2.1 e.2.2)
      (fun e' he' => by
        rw [hlen]
        exact hsrc e' (List.mem_cons_of_mem e he'))
      x
    rw [hrec]
    by_cases hex : e.1 = x
    · have hrow : (base.addEdge e.1 e.2.1 e.2.2).Adj.getD x []
          = base.Adj.getD x [] ++ [Edge.mk e.2.1 e.2.2] := by
        unfold Graph.addEdge
        subst hex
        exact getD_set_self _ _ _ _ (hsrc e (List.mem_cons_self e L'))
      rw [hrow, List.filter_cons_of_pos (by simpa using hex), List.map_cons,
        List.append_assoc]
      rfl
    · have hrow : (base.addEdge e.1 e.2.1 e.2.2).Adj.getD x []
          = base.Adj.getD x [] := by
        unfold Graph.addEdge
        exact getD_set_ne _ _ _ _ _ hex
      rw [hrow, List.filter_cons_of_neg (by simpa using hex)]

theorem allEdges_newGraph (n : Nat) : (newGraph n).allEdges = [] := by
  unfold Graph.allEdges
  have h : ∀ us : List Nat,
      (us.flatMap fun u =>
        ((newGraph n).Adj.getD u []).map fun e => (u, e)) = [] := by
    intro us
    induction us with
    | nil => rfl
    | cons u ust ih =>
      rw [List.flatMap_cons, newGraph_row, ih]
      rfl
  exact h _

theorem flatMap_congr_rows {α : Type} (f f' : Nat → List α) :
    ∀ us : List Nat, (∀ u ∈ us, f u = f' u) →
      us.flatMap f = us.flatMap f'
  | [], _ => rfl
  | u :: ust, h => by
    rw [List.flatMap_cons, List.flatMap_cons, h u (List.mem_cons_self u ust),
      flatMap_congr_rows f f' ust
        (fun v hv => h v (List.mem_cons_of_mem u hv))]

theorem addEdge_allEdges_perm (h : Graph) (u v : Nat) (w : ℤ)
    (hu : u < h.V) (hlen : h.Adj.length = h.V) :
    (h.addEdge u v w).allEdges.Perm ((u, Edge.mk v w) :: h.allEdges) := by
  have hdecomp : List.range h.V
      = List.range u ++ [u]
        ++ (List.range (h.V - (u + 1))).map (fun i => (u + 1) + i) := by
    have h1 : h.V = (u + 1) + (h.V - (u + 1)) := by omega
    conv_lhs => rw [h1]
    rw [List.range_add, List.range_succ]
  have hseg : ∀ (hg : Graph), hg.allEdges
      = (List.range hg.V).flatMap
          (fun t => (hg.Adj.getD t []).map fun e => (t, e)) := fun _ => rfl
  have hVeq : (h.addEdge u v w).V = h.V := rfl
  rw [hseg, hseg, hVeq, hdecomp]
  rw [List.flatMap_append, List.flatMap_append, List.flatMap_append,
    List.flatMap_append]
  have hA : (List.range u).flatMap
        (fun t => ((h.addEdge u v w).Adj.getD t []).map fun e => (t, e))
      = (List.range u).flatMap
        (fun t => (h.Adj.getD t []).map fun e => (t, e)) := by
    apply flatMap_congr_rows
    intro t ht
    have htu : t ≠ u := by
      have := List.mem_range.mp ht
      omega
    have : (h.addEdge u v w).Adj.getD t [] = h.Adj.getD t [] := by
      unfold Graph.addEdge
      exact getD_set_ne _ _ _ _ _ (fun hh => htu hh.symm)
    rw [this]
  have hB : ((List.range (h.V - (u + 1))).map (fun i => (u + 1) + i)).flatMap
        (fun t => ((h.addEdge u v w).Adj.getD t []).map fun e => (t, e))
      = ((List.range (h.V - (u + 1))).map (fun i => (u + 1) + i)).flatMap
        (fun t => (h.Adj.getD t []).map fun e => (t, e)) := by
    apply flatMap_congr_rows
    intro t ht
    have htu : t ≠ u := by
      rcases List.mem_map.mp ht with ⟨i, _, rfl⟩
      omega
    have : (h.addEdge u v w).Adj.getD t [] = h.Adj.getD t [] := by
      unfold Graph.addEdge
      exact getD_set_ne _ _ _ _ _ (fun hh => htu hh.symm)
    rw [this]
  have hU : [u].flatMap
        (fun t => ((h.addEdge u v w).Adj.getD t []).map fun e => (t, e))
      = [u].flatMap (fun t => (h.Adj.getD t []).map fun e => (t, e))
        ++ [(u, Edge.mk v w)] := by
    have hrow : (h.addEdge u v w).Adj.getD u []
        = h.Adj.getD u [] ++ [Edge.mk v w] := by
      unfold Graph.addEdge
      exact getD_set_self _ _ _ _ (by omega)
    simp only [List.flatMap_cons, List.flatMap_nil, List.append_nil, hrow,
      List.map_append]
    rfl
  rw [hA, hB, hU]
  have hmid := @List.perm_middle _ (u, Edge.mk v w)
    (((List.range u).flatMap
        (fun t => (h.Adj.getD t []).map fun e => (t, e)))
      ++ [u].flatMap (fun t => (h.Adj.getD t []).map fun e => (t, e)))
    (((List.range (h.V - (u + 1))).map (fun i => (u + 1) + i)).flatMap
        (fun t => (h.Adj.getD t []).map fun e => (t, e)))
  refine List.Perm.trans (List.Perm.of_eq ?_) hmid
  simp [List.append_assoc]

theorem fold_addEdge_allEdges_perm :
    ∀ (L : List TEdge) (base : Graph), base.Adj.length = base.V → (∀ e ∈ L, e.1 < base.V) →
      ((L.foldl (fun h e => h.addEdge e.1 e.2.1 e.2.2) base).allEdges).Perm
        ((L.map (fun e => (e.1, Edge.mk e.2.1 e.2.2))).reverse
          ++ base.allEdges)
  | [], base, _, _ => by simp
  | e :: L', base, hlen, hsrc => by
    rw [List.foldl_cons]
    have h1 := fold_addEdge_allEdges_perm L' (base.addEdge e.1 e.2.1 e.2.2)
      (by rw [addEdge_len, addEdge_V]; exact hlen)
      (fun e' he' => by
        rw [addEdge_V]
        exact hsrc e' (List.mem_cons_of_mem e he'))
    have h2 := addEdge_allEdges_perm base e.1 e.2.1 e.2.2
      (hsrc e (List.mem_cons_self e L')) hlen
    refine h1.trans ?_
    have h3 := List.Perm.append_left
      ((L'.map (fun e => (e.1, Edge.mk e.2.1 e.2.2))).reverse) h2
    refine h3.trans (List.Perm.of_eq ?_)
    simp

theorem sum_ite_eq_mem (A : Nat → Nat) (u : Nat) :
    ∀ n, ((List.range n).map (fun t => if t = u then A t else 0)).sum
      = if u < n then A u else 0 := by
  intro n
  induction n with
  | zero => simp
  | succ n ih =>
    rw [List.range_succ, List.map_append, List.sum_append, ih]
    by_cases h : n = u
    · subst h
      rw [if_neg (by omega), if_pos (by omega)]
      simp
    · by_cases h2 : u < n
      · rw [if_pos h2, if_pos (by omega)]
        simp [h]
      · rw [if_neg h2, if_neg (by omega)]
        simp [h]

theorem countP_allEdges_src (g : Graph) (u : Nat) (hu : u < g.V) :
    g.allEdges.countP (fun ue => ue.1 = u) = (g.Adj.getD u []).length := by
  unfold Graph.allEdges
  rw [List.countP_flatMap]
  have hseg : ∀ t, ((fun l => l.countP (fun ue : Nat × Edge => decide (ue.1 = u)))
        ∘ (fun t => (g.Adj.getD t []).map fun e => (t, e))) t
      = if t = u then (g.Adj.getD t []).length else 0 := by
    intro t
    show ((g.Adj.getD t []).map fun e => (t, e)).countP
        (fun ue => decide (ue.1 = u)) = _
    rw [List.countP_map]
    by_cases h : t = u
    · subst h
      have : ((fun ue : Nat × Edge => decide (ue.1 = t))
          ∘ fun e => (t, e)) = fun _ => true := by
        funext e
        simp
      rw [this, List.countP_true]
      simp
    · have : ((fun ue : Nat × Edge => decide (ue.1 = u))
          ∘ fun e => (t, e)) = fun _ => false := by
        funext e
        simp [h]
      rw [this, List.countP_false]
      simp [h]
  calc ((List.range g.V).map ((fun l => l.countP
          (fun ue : Nat × Edge => decide (ue.1 = u)))
        ∘ (fun t => (g.Adj.getD t []).map fun e => (t, e)))).sum
      = ((List.range g.V).map
          (fun t => if t = u then (g.Adj.getD t []).length else 0)).sum := by
        congr 1
        exact List.map_congr_left (fun t _ => hseg t)
    _ = if u < g.V then (g.Adj.getD u []).length else 0 :=
        sum_ite_eq_mem _ u g.V
    _ = (g.Adj.getD u []).length := if_pos hu

theorem mem_allEdges_bounds (g : Graph) (hwf : g.WF) :
    ∀ ue ∈ g.allEdges, ue.1 < g.V ∧ ue.2.To < g.V := by
  intro ue hue
  unfold Graph.allEdges at hue
  rcases List.mem_flatMap.mp hue with ⟨u, hu, hmem⟩
  rcases List.mem_map.mp hmem with ⟨e, he, rfl⟩
  have hu' : u < g.V := List.mem_range.mp hu
  refine ⟨hu', ?_⟩
  show e.To < g.V
  by_cases h : u < g.Adj.length
  · rw [List.getD_eq_getElem _ _ h] at he
    exact hwf.2 _ (List.getElem_mem h) e he
  · rw [List.getD_eq_default _ _ (by omega)] at he
    cases he

theorem inDegrees_fold (g : Graph) :
    ∀ (es : List (Nat × Edge)) (acc : List Nat),
      (∀ ue ∈ es, ue.2.To < acc.length) → ∀ t, t < acc.length →
      (es.foldl (fun a ue => a.set ue.2.To (a.getD ue.2.To 0 + 1)) acc).getD t 0
        = acc.getD t 0 + es.countP (fun ue => ue.2.To = t)
  | [], acc, _, t, _ => by simp
  | ue :: es', acc, hb, t, ht => by
    rw [List.foldl_cons, List.countP_cons]
    have hlen : (acc.set ue.2.To (acc.getD ue.2.To 0 + 1)).length
        = acc.length := List.length_set _ _ _
    have hrec := inDegrees_fold g es' (acc.set ue.2.To (acc.getD ue.2.To 0 + 1))
      (fun ue' hue' => by
        rw [hlen]
        exact hb ue' (List.mem_cons_of_mem ue hue'))
      t (by rw [hlen]; exact ht)
    rw [hrec]
    have hToLt : ue.2.To < acc.length := hb ue (List.mem_cons_self ue es')
    by_cases h : ue.2.To = t
    · subst h
      rw [getD_set_self acc ue.2.To _ 0 hToLt]
      rw [if_pos (by simp)]
      omega
    · rw [getD_set_ne acc ue.2.To t _ 0 h]
      rw [if_neg (by simp [h])]
      omega

theorem inDegrees_eq_countP (g : Graph) (hwf : g.WF) (u : Nat)
    (hu : u < g.V) :
    g.inDegrees.getD u 0 = g.allEdges.countP (fun ue => ue.2.To = u) := by
  unfold Graph.inDegrees
  rw [inDegrees_fold g g.allEdges (List.replicate g.V 0)
    (fun ue hue => by
      rw [List.length_replicate]
      exact (mem_allEdges_bounds g hwf ue hue).2)
    u (by rw [List.length_replicate]; exact hu)]
  have : (List.replicate g.V 0).getD u 0 = 0 := by
    rw [List.getD_eq_getElem _ _ (by simpa using hu)]
    simp
  rw [this, Nat.zero_add]

/-- The total number of slot consumptions of original vertex `u` over a
prefix of the edge stream: once per outgoing and once per incoming
touch. -/
def usesCount (done : List (Nat × Edge)) (u : Nat) : Nat :=
  done.countP (fun ue => ue.1 = u) + done.countP (fun ue => ue.2.To = u)

theorem usesCount_append (a b : List (Nat × Edge)) (u : Nat) :
    usesCount (a ++ b) u = usesCount a u + usesCount b u := by
  unfold usesCount
  rw [List.countP_append, List.countP_append]
  omega

theorem usesCount_le_cycSize (g : Graph) (hwf : g.WF) (u : Nat)
    (hu : u < g.V) : usesCount g.allEdges u ≤ g.cycSize u := by
  unfold usesCount
  rw [countP_allEdges_src g u hu, ← inDegrees_eq_countP g hwf u hu]
  show _ ≤ if (g.Adj.getD u []).length + g.inDegrees.getD u 0 = 0 then 1
    else (g.Adj.getD u []).length + g.inDegrees.getD u 0
  split <;> omega

theorem cyc_slot_inj (g : Graph) (u s u' s' : Nat)
    (hs : s < g.cycSize u) (hs' : s' < g.cycSize u')
    (h : g.cycStart u + s = g.cycStart u' + s') : u = u' ∧ s = s' := by
  rcases Nat.lt_trichotomy u u' with h1 | h1 | h1
  · have h2 := cycStart_block_le g u u' h1
    omega
  · subst h1
    omega
  · have h2 := cycStart_block_le g u' u h1
    omega

/-- All transformed node ids used as endpoints of a real-edge list. -/
def endpoints (es : List TEdge) : List Nat :=
  es.flatMap (fun e => [e.1, e.2.1])

theorem endpoints_append (a b : List TEdge) :
    endpoints (a ++ b) = endpoints a ++ endpoints b := by
  unfold endpoints
  rw [List.flatMap_append]

theorem countP_endpoints (x : Nat) :
    ∀ es : List TEdge, (endpoints es).countP (fun y => y = x)
      = es.countP (fun e => e.1 = x) + es.countP (fun e => e.2.1 = x)
  | [] => rfl
  | e :: es' => by
    show ([e.1, e.2.1] ++ endpoints es').countP _ = _
    rw [List.countP_append, countP_endpoints x es', List.countP_cons,
      List.countP_cons, List.countP_cons, List.countP_cons, List.countP_nil]
    omega

theorem nodup_countP_le_one (x : Nat) :
    ∀ l : List Nat, l.Nodup → l.countP (fun y => y = x) ≤ 1
  | [], _ => by simp
  | a :: l', h => by
    rcases List.nodup_cons.mp h with ⟨ha, hl'⟩
    rw [List.countP_cons]
    by_cases hax : a = x
    · subst hax
      have : l'.countP (fun y => y = a) = 0 := by
        rw [List.countP_eq_zero]
        intro b hb
        simp only [decide_eq_true_eq]
        intro hb2
        subst hb2
        exact ha hb
      rw [this]
      simp
    · have := nodup_countP_le_one x l' hl'
      rw [if_neg (by simp [hax])]
      omega

theorem countP_singleton {α : Type} (p : α → Bool) (a : α) :
    List.countP p [a] = if p a = true then 1 else 0 := by
  rw [List.countP_cons, List.countP_nil, Nat.zero_add]

/-- Invariant of the real-edge emission fold after a prefix `done` of
the edge stream: the slot table records the consumption counts, every
emitted endpoint is a fresh in-range slot of its owner's cycle, and no
transformed node id is used twice. -/
def RealInv (g : Graph) (done : List (Nat × Edge))
    (st : List Nat × List TEdge) : Prop :=
  st.1.length = g.V
  ∧ (∀ u, u < g.V → st.1.getD u 0 = usesCount done u)
  ∧ (∀ x ∈ endpoints st.2,
      ∃ u s, x = g.cycStart u + s ∧ u < g.V ∧ s < usesCount done u)
  ∧ (endpoints st.2).Nodup

theorem usesCount_prefix_le (g : Graph) (done rest : List (Nat × Edge))
    (hall : g.allEdges = done ++ rest) (t : Nat) :
    usesCount done t ≤ usesCount g.allEdges t := by
  rw [hall, usesCount_append]
  omega

theorem realStep_inv (g : Graph) (hwf : g.WF) (done rest : List (Nat × Edge))
    (ue : Nat × Edge) (st : List Nat × List TEdge)
    (hall : g.allEdges = done ++ ue :: rest)
    (hInv : RealInv g done st) :
    RealInv g (done ++ [ue]) (realStep g st ue) := by
  obtain ⟨hlen, hslots, hshape, hnd⟩ := hInv
  have hmem : ue ∈ g.allEdges := by
    rw [hall]
    exact List.mem_append_right done (List.mem_cons_self ue rest)
  obtain ⟨hu, hv⟩ := mem_allEdges_bounds g hwf ue hmem
  have hall' : g.allEdges = (done ++ [ue]) ++ rest := by
    rw [hall]
    simp
  have huses : ∀ t, usesCount (done ++ [ue]) t
      = usesCount done t + ((if ue.1 = t then 1 else 0)
        + (if ue.2.To = t then 1 else 0)) := by
    intro t
    rw [usesCount_append]
    unfold usesCount
    rw [countP_singleton, countP_singleton]
    by_cases h1 : ue.1 = t <;> by_cases h2 : ue.2.To = t <;>
      simp [h1, h2]
  have hcu : st.1.getD ue.1 0 = usesCount done ue.1 := hslots ue.1 hu
  have hlen1 : (st.1.set ue.1 (st.1.getD ue.1 0 + 1)).length = g.V := by
    rw [List.length_set]
    exact hlen
  have hcv : (st.1.set ue.1 (st.1.getD ue.1 0 + 1)).getD ue.2.To 0
      = if ue.1 = ue.2.To then usesCount done ue.1 + 1
        else usesCount done ue.2.To := by
    by_cases h : ue.1 = ue.2.To
    · rw [if_pos h, ← h, getD_set_self _ _ _ _ (by omega), hcu]
    · rw [if_neg h, getD_set_ne _ _ _ _ _ h]
      exact hslots ue.2.To hv
  have hsa : usesCount done ue.1 < usesCount (done ++ [ue]) ue.1 := by
    rw [huses]
    simp
  have hsb : (st.1.set ue.1 (st.1.getD ue.1 0 + 1)).getD ue.2.To 0
      < usesCount (done ++ [ue]) ue.2.To := by
    rw [hcv, huses]
    by_cases h : ue.1 = ue.2.To
    · rw [if_pos h, if_pos h, h]
      simp
    · rw [if_neg h, if_neg h]
      simp
  have hsizeA : usesCount (done ++ [ue]) ue.1 ≤ g.cycSize ue.1 :=
    le_trans (usesCount_prefix_le g (done ++ [ue]) rest hall' ue.1)
      (usesCount_le_cycSize g hwf ue.1 hu)
  have hsizeB : usesCount (done ++ [ue]) ue.2.To ≤ g.cycSize ue.2.To :=
    le_trans (usesCount_prefix_le g (done ++ [ue]) rest hall' ue.2.To)
      (usesCount_le_cycSize g hwf ue.2.To hv)
  have hends : endpoints (realStep g st ue).2
      = endpoints st.2
        ++ [g.cycStart ue.1 + st.1.getD ue.1 0,
            g.cycStart ue.2.To
              + (st.1.set ue.1 (st.1.getD ue.1 0 + 1)).getD ue.2.To 0] := by
    show endpoints (st.2 ++ [_]) = _
    rw [endpoints_append]
    rfl
  have hshape' : ∀ x ∈ endpoints st.2,
      ∃ u s, x = g.cycStart u + s ∧ u < g.V
        ∧ s < usesCount (done ++ [ue]) u := by
    intro x hx
    obtain ⟨u', s', hxe, hu', hs'⟩ := hshape x hx
    refine ⟨u', s', hxe, hu', lt_of_lt_of_le hs' ?_⟩
    rw [usesCount_append]
    omega
  have hshape_le_size : ∀ x ∈ endpoints st.2,
      ∃ u s, x = g.cycStart u + s ∧ u < g.V ∧ s < g.cycSize u
        ∧ s < usesCount done u := by
    intro x hx
    obtain ⟨u', s', hxe, hu', hs'⟩ := hshape x hx
    refine ⟨u', s', hxe, hu', lt_of_lt_of_le hs' ?_, hs'⟩
    exact le_trans (usesCount_prefix_le g done (ue :: rest) hall u')
      (usesCount_le_cycSize g hwf u' hu')
  have hA_notmem : g.cycStart ue.1 + st.1.getD ue.1 0 ∉ endpoints st.2 := by
    intro hmem2
    obtain ⟨u', s', hxe, hu', hsz', hs'⟩ := hshape_le_size _ hmem2
    obtain ⟨heq1, heq2⟩ := cyc_slot_inj g ue.1 (st.1.getD ue.1 0) u' s'
      (by rw [hcu]; omega) hsz' hxe
    subst heq1
    omega
  have hB_notmem : g.cycStart ue.2.To
      + (st.1.set ue.1 (st.1.getD ue.1 0 + 1)).getD ue.2.To 0
      ∉ endpoints st.2 := by
    intro hmem2
    obtain ⟨u', s', hxe, hu', hsz', hs'⟩ := hshape_le_size _ hmem2
    obtain ⟨heq1, heq2⟩ := cyc_slot_inj g ue.2.To
      ((st.1.set ue.1 (st.1.getD ue.1 0 + 1)).getD ue.2.To 0) u' s'
      (by omega) hsz' hxe
    subst heq1
    rw [hcv] at heq2
    by_cases h : ue.1 = ue.2.To
    · rw [if_pos h, h] at heq2
      omega
    · rw [if_neg h] at heq2
      omega
  have hAB : g.cycStart ue.1 + st.1.getD ue.1 0
      ≠ g.cycStart ue.2.To
        + (st.1.set ue.1 (st.1.getD ue.1 0 + 1)).getD ue.2.To 0 := by
    intro heq
    obtain ⟨heq1, heq2⟩ := cyc_slot_inj g ue.1 (st.1.getD ue.1 0) ue.2.To
      ((st.1.set ue.1 (st.1.getD ue.1 0 + 1)).getD ue.2.To 0)
      (by rw [hcu]; omega) (by omega) heq
    rw [hcv, if_pos heq1] at heq2
    omega
  refine ⟨?_, ?_, ?_, ?_⟩
  · show ((st.1.set ue.1 _).set ue.2.To _).length = g.V
    rw [List.length_set, List.length_set]
    exact hlen
  · intro t ht
    show ((st.1.set ue.1 (st.1.getD ue.1 0 + 1)).set ue.2.To
        ((st.1.set ue.1 (st.1.getD ue.1 0 + 1)).getD ue.2.To 0 + 1)).getD t 0
      = _
    by_cases h2 : ue.2.To = t
    · subst h2
      rw [getD_set_self _ _ _ _ (by omega), hcv, huses]
      by_cases h : ue.1 = ue.2.To
      · rw [if_pos h, if_pos h, h]
        simp
      · rw [if_neg h, if_neg h]
        simp
    · rw [getD_set_ne _ _ _ _ _ h2]
      by_cases h1 : ue.1 = t
      · subst h1
        rw [getD_set_self _ _ _ _ (by omega), hcu, huses]
        rw [if_neg h2]
        simp
      · rw [getD_set_ne _ _ _ _ _ h1, hslots t ht, huses]
        rw [if_neg h1, if_neg h2]
        omega
  · rw [hends]
    intro x hx
    rcases List.mem_append.mp hx with hx | hx
    · exact hshape' x hx
    · rcases List.mem_cons.mp hx with rfl | hx
      · exact ⟨ue.1, st.1.getD ue.1 0, rfl, hu, by rw [hcu]; exact hsa⟩
      · rcases List.mem_cons.mp hx with rfl | hx
        · exact ⟨ue.2.To, _, rfl, hv, hsb⟩
        · cases hx
  · rw [hends]
    rw [List.nodup_append]
    refine ⟨hnd, ?_, ?_⟩
    · exact List.nodup_cons.mpr ⟨by simpa using hAB, by simp⟩
    · intro a ha hb
      rcases List.mem_cons.mp hb with rfl | hb
      · exact hA_notmem ha
      · rcases List.mem_cons.mp hb with rfl | hb
        · exact hB_notmem ha
        · cases hb

theorem realFold_inv (g : Graph) (hwf : g.WF) :
    ∀ (todo done : List (Nat × Edge)) (st : List Nat × List TEdge),
      g.allEdges = done ++ todo → RealInv g done st →
      RealInv g g.allEdges (todo.foldl (realStep g) st)
  | [], done, st, hall, hInv => by
    rw [List.foldl_nil, hall, List.append_nil]
    exact hInv
  | ue :: todo', done, st, hall, hInv => by
    rw [List.foldl_cons]
    exact realFold_inv g hwf todo' (done ++ [ue]) (realStep g st ue)
      (by rw [hall]; simp)
      (realStep_inv g hwf done todo' ue st hall hInv)

theorem realEdges_inv (g : Graph) (hwf : g.WF) :
    RealInv g g.allEdges
      (g.allEdges.foldl (realStep g) (List.replicate g.V 0, [])) := by
  apply realFold_inv g hwf g.allEdges [] _ (by simp)
  refine ⟨by simp, ?_, ?_, ?_⟩
  · intro u hu
    show (List.replicate g.V 0).getD u 0 = usesCount [] u
    rw [List.getD_eq_getElem _ _ (by simpa using hu)]
    simp [usesCount]
  · intro x hx
    cases hx
  · exact List.nodup_nil

theorem mem_endpoints_of_mem (es : List TEdge) (e : TEdge) (he : e ∈ es) :
    e.1 ∈ endpoints es ∧ e.2.1 ∈ endpoints es := by
  unfold endpoints
  exact ⟨List.mem_flatMap.mpr ⟨e, he, by simp⟩,
    List.mem_flatMap.mpr ⟨e, he, by simp⟩⟩

theorem cycleEdges_src_lt (g : Graph) : ∀ e ∈ g.cycleEdges, e.1 < g.TotalV := by
  intro e he
  unfold Graph.cycleEdges at he
  rcases List.mem_flatMap.mp he with ⟨u, hu, hmem⟩
  rcases List.mem_map.mp hmem with ⟨i, hi, rfl⟩
  have hu' := List.mem_range.mp hu
  have hi' := List.mem_range.mp hi
  have hblk := cycStart_block_le g u g.V hu'
  rw [totalV_eq_cycStart]
  show g.cycStart u + i < g.cycStart g.V
  omega

theorem realEdges_endpoint_lt (g : Graph) (hwf : g.WF) :
    ∀ x ∈ endpoints g.realEdges, x < g.TotalV := by
  intro x hx
  obtain ⟨u, s, rfl, hu, hs⟩ := (realEdges_inv g hwf).2.2.1 x hx
  have hle := usesCount_le_cycSize g hwf u hu
  have hblk := cycStart_block_le g u g.V hu
  rw [totalV_eq_cycStart]
  omega

theorem realEdges_countP_le (g : Graph) (hwf : g.WF) (x : Nat) :
    g.realEdges.countP (fun e => e.1 = x)
      + g.realEdges.countP (fun e => e.2.1 = x) ≤ 1 := by
  have hnd : (endpoints g.realEdges).Nodup := (realEdges_inv g hwf).2.2.2
  have h1 := countP_endpoints x g.realEdges
  have h2 := nodup_countP_le_one x _ hnd
  omega

/-- C9: every vertex of the graph produced by `ToConstantDegree` on a
well-formed input graph has out-degree at most 2 and in-degree at most
2: each transformed node belongs to exactly one zero-weight cycle
(one cycle successor and one cycle predecessor) and the emission loop
hands each real edge endpoint a fresh slot, so a transformed node is an
endpoint of at most one real edge. -/
theorem transform_degree_le_two (g : Graph) (hwf : g.WF) (x : Nat) :
    outDegT g.ToConstantDegree.G x ≤ 2 ∧ inDegT g.ToConstantDegree.G x ≤ 2 := by
  have hbase : (newGraph g.TotalV).Adj.length = g.TotalV := by
    simp [newGraph]
  have hL : ∀ e ∈ g.cycleEdges ++ g.realEdges, e.1 < g.TotalV := by
    intro e he
    rcases List.mem_append.mp he with h | h
    · exact cycleEdges_src_lt g e h
    · exact realEdges_endpoint_lt g hwf e.1 (mem_endpoints_of_mem _ e h).1
  have hG : g.ToConstantDegree.G
      = (g.cycleEdges ++ g.realEdges).foldl
          (fun h e => h.addEdge e.1 e.2.1 e.2.2) (newGraph g.TotalV) := rfl
  have hcyc_src : g.cycleEdges.countP (fun e => e.1 = x) ≤ 1 := by
    rw [countP_cycle_src]
    split <;> omega
  have hcyc_tgt : g.cycleEdges.countP (fun e => e.2.1 = x) ≤ 1 := by
    rw [countP_cycle_tgt]
    split <;> omega
  have hreal := realEdges_countP_le g hwf x
  constructor
  · show (g.ToConstantDegree.G.Adj.getD x []).length ≤ 2
    rw [hG, fold_addEdge_row _ _
      (fun e he => by rw [hbase]; exact hL e he) x, newGraph_row,
      List.nil_append, List.length_map, ← List.countP_eq_length_filter,
      List.countP_append]
    omega
  · show g.ToConstantDegree.G.allEdges.countP (fun ue => ue.2.To = x) ≤ 2
    have hperm := fold_addEdge_allEdges_perm (g.cycleEdges ++ g.realEdges)
      (newGraph g.TotalV) hbase (fun e he => hL e he)
    rw [hG, List.Perm.countP_eq _ hperm, allEdges_newGraph, List.append_nil,
      List.Perm.countP_eq _ (List.reverse_perm _), List.countP_map]
    have hcomp : ((fun ue : Nat × Edge => decide (ue.2.To = x))
        ∘ fun e : TEdge => (e.1, Edge.mk e.2.1 e.2.2))
        = fun e : TEdge => decide (e.2.1 = x) := rfl
    rw [hcomp, List.countP_append]
    omega

/-- Witness for `transform_degree_le_two`: the two-vertex one-edge graph
`gPair` at transformed vertex 0. -/
theorem transform_degree_le_two_witness :
    gPair.WF
    ∧ (outDegT gPair.ToConstantDegree.G 0 ≤ 2
        ∧ inDegT gPair.ToConstantDegree.G 0 ≤ 2) :=
  ⟨⟨rfl, by decide⟩, transform_degree_le_two gPair ⟨rfl, by decide⟩ 0⟩

end DuanSSSP
